import Mathlib

/-!
# Verification of the arborescence decoding layer of `npdependency`

This file embeds, in Lean, the decoding-related fragments of the
repository:

* the matrix preparation `preds.numpy()[1:,1:].T` of `GraphParser.predict`
  (`mst.py`),
* the greedy head prediction `np.argmax(arc_scores.numpy().T, axis=1)` and
  the edge-list construction of `BiAffineParser.predict_batch`
  (`graph_parser3.py`),
* a model of the Chu-Liu/Edmonds maximum-spanning-arborescence decoder.
  The function `chuliu_edmonds` itself (imported from `mst` by
  `graph_parser3.py`) is not part of the provided sources, so the decoder
  is modelled from the specification (candidate head selection with
  lowest-index tie break, cycle detection, contraction, expansion, and a
  driver recursing on the active node set).
-/

namespace NpDep

/-- Model of a numpy 2-D float array: a list of rows of rationals. -/
abbrev Mat := List (List ℚ)

/-- Model of `m.T` for a 2-D numpy array `m`: entry `(i, j)` of the result
is entry `(j, i)` of `m`.  The number of columns is read off the first
row, as numpy does for a rectangular array. -/
def npT (m : Mat) : Mat :=
  (List.range (m.headD []).length).map fun i => m.map fun row => row.getD i 0

/-- Model of the row/column slice `m[1:,1:]`. -/
def slice11 (m : Mat) : Mat :=
  (m.drop 1).map fun row => row.drop 1

/-- `GraphParser.predict` (mst.py): the matrix handed to the maximum
spanning arborescence solver, `preds.numpy()[1:,1:].T`. -/
def predictSolverMatrix (preds : Mat) : Mat :=
  npT (slice11 preds)

/-- A rectangular `r × c` matrix: `r` rows, each of length `c`. -/
def IsRect (m : Mat) (r c : ℕ) : Prop :=
  m.length = r ∧ ∀ row ∈ m, row.length = c

instance (m : Mat) (r c : ℕ) : Decidable (IsRect m r c) := by
  unfold IsRect
  infer_instance

theorem npT_length (m : Mat) : (npT m).length = (m.headD []).length := by
  simp [npT]

theorem npT_row_length (m : Mat) (row : List ℚ) (h : row ∈ npT m) :
    row.length = m.length := by
  simp only [npT, List.mem_map, List.mem_range] at h
  obtain ⟨i, -, rfl⟩ := h
  simp

theorem npT_entry (m : Mat) (i j : ℕ) (hi : i < (m.headD []).length)
    (hj : j < m.length) :
    ((npT m).getD i []).getD j 0 = (m.getD j []).getD i 0 := by
  have h1 : (npT m).getD i [] = m.map fun row => row.getD i 0 := by
    rw [List.getD_eq_getElem (npT m) [] (by simpa [npT] using hi)]
    simp only [npT, List.getElem_map, List.getElem_range]
  rw [h1, List.getD_eq_getElem (m.map fun row => row.getD i 0) 0 (by simpa using hj),
    List.getElem_map, List.getD_eq_getElem m [] hj]

theorem slice11_rect (m : Mat) (N : ℕ) (h : IsRect m N N) :
    IsRect (slice11 m) (N - 1) (N - 1) := by
  obtain ⟨hlen, hrow⟩ := h
  constructor
  · simp [slice11, hlen]
  · intro row hr
    simp only [slice11, List.mem_map] at hr
    obtain ⟨row₀, hr₀, rfl⟩ := hr
    have : row₀.length = N := hrow _ (List.mem_of_mem_drop hr₀)
    simp [this]

theorem rect_headD_length (m : Mat) (r c : ℕ) (h : IsRect m r c) (hr : r ≠ 0) :
    (m.headD []).length = c := by
  obtain ⟨hlen, hrow⟩ := h
  cases m with
  | nil => simp at hlen; omega
  | cons row rest => exact hrow row (by simp)

theorem slice11_entry (m : Mat) (N : ℕ) (h : IsRect m N N) (j i : ℕ)
    (hj : j < N - 1) (hi : i < N - 1) :
    ((slice11 m).getD j []).getD i 0 = (m.getD (j + 1) []).getD (i + 1) 0 := by
  obtain ⟨hlen, hrow⟩ := h
  have hj' : j < (m.drop 1).length := by simp [hlen]; omega
  have hrow1 : (slice11 m).getD j [] = ((m.drop 1).getD j []).drop 1 := by
    rw [List.getD_eq_getElem (slice11 m) [] (by simp [slice11, hlen]; omega),
      List.getD_eq_getElem (m.drop 1) [] hj']
    simp [slice11]
  rw [hrow1]
  have hd : (m.drop 1).getD j [] = m.getD (j + 1) [] := by
    rw [List.getD_eq_getElem (m.drop 1) [] hj',
      List.getD_eq_getElem m [] (by omega : j + 1 < m.length)]
    rw [List.getElem_drop]
    congr 1
    omega
  rw [hd]
  have hml : (m.getD (j + 1) []).length = N := by
    rw [List.getD_eq_getElem m [] (by omega : j + 1 < m.length)]
    exact hrow _ (List.getElem_mem _)
  have hb1 : i < ((m.getD (j + 1) []).drop 1).length := by
    rw [List.length_drop, hml]; omega
  have hb2 : i + 1 < (m.getD (j + 1) []).length := by rw [hml]; omega
  rw [List.getD_eq_getElem _ 0 hb1, List.getD_eq_getElem _ 0 hb2]
  rw [List.getElem_drop]
  congr 1
  omega

/-- C8: the matrix handed to the spanning-arborescence solver in
`GraphParser.predict` is `preds.numpy()[1:,1:].T`: an (N-1)×(N-1) matrix
whose entry `(i, j)` is `preds[j+1][i+1]`; row and column 0 of `preds`
(the root position) are never read, so root is not a node of the decoded
graph. -/
theorem C8_predict_matrix (preds : Mat) (N : ℕ) (h : IsRect preds N N) :
    IsRect (predictSolverMatrix preds) (N - 1) (N - 1) ∧
    ∀ i j, i < N - 1 → j < N - 1 →
      ((predictSolverMatrix preds).getD i []).getD j 0 =
        (preds.getD (j + 1) []).getD (i + 1) 0 := by
  have hs := slice11_rect preds N h
  have hT : IsRect (predictSolverMatrix preds) (N - 1) (N - 1) := by
    constructor
    · rw [predictSolverMatrix, npT_length]
      rcases Nat.eq_zero_or_pos (N - 1) with h0 | hpos
      · rw [h0]
        have : slice11 preds = [] := List.length_eq_zero.mp (hs.1.trans h0)
        simp [this]
      · exact rect_headD_length _ _ _ hs (by omega)
    · intro row hr
      rw [npT_row_length _ _ hr]
      exact hs.1
  refine ⟨hT, fun i j hi hj => ?_⟩
  have hhd : ((slice11 preds).headD []).length = N - 1 := by
    rcases Nat.eq_zero_or_pos (N - 1) with h0 | hpos
    · have : slice11 preds = [] := List.length_eq_zero.mp (hs.1.trans h0)
      simp [this, h0]
    · exact rect_headD_length _ _ _ hs (by omega)
  rw [predictSolverMatrix, npT_entry _ i j (by rw [hhd]; exact hi) (by rw [hs.1]; exact hj)]
  exact slice11_entry preds N h j i hj hi

/-! ## Greedy head prediction (`BiAffineParser.predict_batch`, greedy path)

`probs = arc_scores.numpy().T; mst_heads = np.argmax(probs, axis=1)`.
`np.argmax` returns the first (lowest) index attaining the maximum. -/

/-- Model of `np.argmax` on a 1-D array, returning `(index, value)`.
On ties the lowest index wins, as numpy scans left to right. -/
def npArgmax : List ℚ → ℕ × ℚ
  | [] => (0, 0)
  | [x] => (0, x)
  | x :: y :: xs =>
    let p := npArgmax (y :: xs)
    if x < p.2 then (p.1 + 1, p.2) else (0, x)

/-- The greedy head prediction of `predict_batch` with `greedy=True`:
row-wise argmax of the transposed score matrix. -/
def greedyHeads (arcScores : Mat) : List ℕ :=
  (npT arcScores).map fun row => (npArgmax row).1

theorem npArgmax_spec (x : ℚ) (xs : List ℚ) :
    (npArgmax (x :: xs)).1 < (x :: xs).length ∧
    (x :: xs).getD (npArgmax (x :: xs)).1 0 = (npArgmax (x :: xs)).2 ∧
    ∀ j < (x :: xs).length,
      (x :: xs).getD j 0 ≤ (npArgmax (x :: xs)).2 ∧
      ((x :: xs).getD j 0 = (npArgmax (x :: xs)).2 → (npArgmax (x :: xs)).1 ≤ j) := by
  induction xs generalizing x with
  | nil =>
    refine ⟨by simp [npArgmax], by simp [npArgmax], fun j hj => ?_⟩
    have hj0 : j = 0 := by simpa [Nat.lt_one_iff] using hj
    subst hj0
    simp [npArgmax]
  | cons y ys ih =>
    obtain ⟨ih1, ih2, ih3⟩ := ih y
    show ((if x < (npArgmax (y :: ys)).2 then _ else _ : ℕ × ℚ).1 < _) ∧ _
    by_cases hlt : x < (npArgmax (y :: ys)).2
    · simp only [npArgmax, hlt, if_true]
      refine ⟨by simpa using ih1, by simpa using ih2, fun j hj => ?_⟩
      cases j with
      | zero => exact ⟨le_of_lt hlt, fun he => absurd he (ne_of_lt hlt)⟩
      | succ j =>
        have hj' : j < (y :: ys).length := by simpa using hj
        obtain ⟨h1, h2⟩ := ih3 j hj'
        exact ⟨by simpa using h1, fun he => by simpa using h2 (by simpa using he)⟩
    · simp only [npArgmax, hlt, if_false]
      push_neg at hlt
      refine ⟨by simp, by simp, fun j hj => ?_⟩
      cases j with
      | zero => simp
      | succ j =>
        have hj' : j < (y :: ys).length := by simpa using hj
        obtain ⟨h1, h2⟩ := ih3 j hj'
        exact ⟨by simpa using le_trans h1 hlt, fun _ => Nat.zero_le _⟩

/-- C9: with `greedy=True`, the head of every position `i` (the root
position 0 included) is the argmax over the whole row `i` of the
transposed score matrix; no index is excluded, so a position may select
itself, and the result need not be a tree (witnessed by the concrete
diagonal-dominant matrix, where every position selects itself). -/
theorem C9_greedy_argmax (arcScores : Mat) (N : ℕ) (h : IsRect arcScores N N)
    (hN : 0 < N) :
    ((greedyHeads arcScores).length = N ∧
      ∀ i < N, (greedyHeads arcScores).getD i 0 < N ∧
        (∀ j < N, ((npT arcScores).getD i []).getD j 0 ≤
          ((npT arcScores).getD i []).getD ((greedyHeads arcScores).getD i 0) 0) ∧
        ∀ j < N, ((npT arcScores).getD i []).getD j 0 =
            ((npT arcScores).getD i []).getD ((greedyHeads arcScores).getD i 0) 0 →
          (greedyHeads arcScores).getD i 0 ≤ j) ∧
    greedyHeads [[2, 0], [0, 1]] = [0, 1] := by
  have hhd : (arcScores.headD []).length = N := rect_headD_length _ _ _ h (by omega)
  have hTlen : (npT arcScores).length = N := by rw [npT_length, hhd]
  refine ⟨⟨by simp [greedyHeads, hTlen], fun i hi => ?_⟩, by decide⟩
  have hrowmem : (npT arcScores).getD i [] ∈ npT arcScores := by
    rw [List.getD_eq_getElem (npT arcScores) [] (by omega)]
    exact List.getElem_mem _
  have hrlen : ((npT arcScores).getD i []).length = N := by
    rw [npT_row_length _ _ hrowmem, h.1]
  have hmapD : ∀ (l : List (List ℚ)) (k : ℕ), k < l.length →
      ((l.map fun row => (npArgmax row).1).getD k 0 = (npArgmax (l.getD k [])).1) := by
    intro l
    induction l with
    | nil => intro k hk; simp at hk
    | cons a l ih =>
      intro k hk
      cases k with
      | zero => simp
      | succ k => simpa using ih k (by simpa using hk)
  have hheads : (greedyHeads arcScores).getD i 0 =
      (npArgmax ((npT arcScores).getD i [])).1 :=
    hmapD (npT arcScores) i (by omega)
  obtain ⟨row0, rest, hrow⟩ : ∃ a l, (npT arcScores).getD i [] = a :: l := by
    cases hr : (npT arcScores).getD i [] with
    | nil => rw [hr] at hrlen; simp at hrlen; omega
    | cons a l => exact ⟨a, l, rfl⟩
  obtain ⟨s1, s2, s3⟩ := npArgmax_spec row0 rest
  rw [← hrow] at s1 s2 s3
  rw [hrlen] at s1 s3
  refine ⟨by rw [hheads]; exact s1, fun j hj => ?_, fun j hj he => ?_⟩
  · rw [hheads, s2]; exact (s3 j hj).1
  · rw [hheads]; rw [hheads, s2] at he; exact (s3 j hj).2 he

/-! ## Edge-list construction (`BiAffineParser.predict_batch`, lines 598-599)

`edges = [(head, itolab[lbl], dep) for (dep, head, lbl) in
zip(range(length), mst_heads[:length], mst_labels[:length])]` and the
output graph is built from `edges[1:]`.  Labels are kept as raw indices
(the `itolab` lookup is lexicon bookkeeping outside this core). -/

/-- The full edge list built by `predict_batch` (before dropping the root
edge): triples `(head, label, dependent)`. -/
def predEdges (mstHeads mstLabels : List ℕ) (length : ℕ) : List (ℕ × ℕ × ℕ) :=
  ((List.range length).zip ((mstHeads.take length).zip (mstLabels.take length))).map
    fun x => (x.2.1, x.2.2, x.1)

/-- The edges of the output `DepGraph`: `edges[1:]`. -/
def depGraphEdges (mstHeads mstLabels : List ℕ) (length : ℕ) : List (ℕ × ℕ × ℕ) :=
  (predEdges mstHeads mstLabels length).drop 1

theorem predEdges_dep (mstHeads mstLabels : List ℕ) (length k : ℕ)
    (hk : k < (predEdges mstHeads mstLabels length).length) :
    ((predEdges mstHeads mstLabels length).getD k (0, 0, 0)).2.2 = k := by
  simp only [predEdges] at hk ⊢
  rw [List.getD_eq_getElem _ _ hk]
  rw [List.getElem_map]
  simp only [List.length_map, List.length_zip, List.length_range] at hk
  rw [List.getElem_zip]
  simp

/-- C10: the output dependency graph of `predict_batch` is built from
`edges[1:]`: the edge whose dependent is position 0 is discarded, and no
edge of the output assigns a head to the root position, whatever head the
decoder produced for it. -/
theorem C10_root_edge_dropped (mstHeads mstLabels : List ℕ) (length : ℕ) :
    ∀ e ∈ depGraphEdges mstHeads mstLabels length, e.2.2 ≠ 0 := by
  intro e he
  rw [depGraphEdges, List.mem_iff_getElem] at he
  obtain ⟨k, hk, hke⟩ := he
  rw [List.getElem_drop] at hke
  have hk' : 1 + k < (predEdges mstHeads mstLabels length).length := by
    simp only [List.length_drop] at hk; omega
  have := predEdges_dep mstHeads mstLabels length (1 + k) hk'
  rw [List.getD_eq_getElem _ _ hk', hke] at this
  omega

end NpDep

namespace CLE

/-!
## The arborescence decoder (Chu-Liu/Edmonds)

Modelled from the spec: the function `chuliu_edmonds` imported from `mst`
by `graph_parser3.py` is not among the provided sources, so the decoder is
built from the specification, section 4: per-node candidate head selection
by arg-max with lowest-source-index tie break (4.1), cycle detection on
the candidate assignment (4.2), contraction of one cycle into a single
node with reweighted entering/leaving edges (4.3), recursive solving and
re-expansion breaking one internal cycle edge (4.4), driven by a loop
whose active node set shrinks at every contraction (4.5).

Nodes of a sentence of length `N = n + 1` are `Fin (n + 1)`; the root is
node `0`.  Scores are rationals (the spec's finite floating-point scores).
-/

/-- The node set of a sentence with `n + 1` positions. -/
abbrev V (n : ℕ) := Fin (n + 1)

variable {n : ℕ}

/-- The designated root node, position 0. -/
def root : V n := 0

/-- Least element of `s` attaining the maximum of `f`, with default
`dflt` for the empty set: the spec's arg-max with ties broken toward the
lowest index. -/
def leastArgmaxD (f : V n → ℚ) (s : Finset (V n)) (dflt : V n) : V n :=
  let t := s.filter fun x => ∀ y ∈ s, f y ≤ f x
  if h : t.Nonempty then t.min' h else dflt

/-- Candidate sources for the incoming edge of `d`: any other active node
or the root (spec 4.1). -/
def cand (active : Finset (V n)) (d : V n) : Finset (V n) :=
  (insert root active).erase d

/-- Candidate head selector (spec 4.1): each active node takes its
best-scoring incoming edge, lowest source index on ties; nodes outside
the active set are left fixed. -/
def select (scores : V n → V n → ℚ) (active : Finset (V n)) : V n → V n :=
  fun d =>
    if d ∈ active then leastArgmaxD (fun s => scores s d) (cand active d) d else d

/-- Active nodes lying on a cycle of the candidate assignment `h`:
following heads from them returns to them (spec 4.2). -/
def cyclicNodes (h : V n → V n) (active : Finset (V n)) : Finset (V n) :=
  active.filter fun d => ((Finset.Icc 1 (n + 1)).filter fun k => h^[k] d = d).Nonempty

/-- The cycle through `d₀`: its forward orbit under the candidate
assignment. -/
def orbit (h : V n → V n) (d₀ : V n) : Finset (V n) :=
  (Finset.range (n + 1)).image fun k => h^[k] d₀

/-- Adjusted score of the external edge `s → d` for a cycle member `d`:
the original score minus the score of the internal cycle edge into `d`
that the external edge would replace (spec section 3). -/
def enterScore (scores : V n → V n → ℚ) (h : V n → V n) (s d : V n) : ℚ :=
  scores s d - scores (h d) d

/-- The cycle member an external edge from `s` enters at: the member
maximizing the adjusted score (spec 4.3), lowest index on ties. -/
def enterMember (scores : V n → V n → ℚ) (h : V n → V n) (C : Finset (V n))
    (c : V n) (s : V n) : V n :=
  leastArgmaxD (enterScore scores h s) C c

/-- The cycle member an edge leaving the cycle toward `t` exits from: the
member with the best original score toward `t`, lowest index on ties. -/
def exitMember (scores : V n → V n → ℚ) (C : Finset (V n)) (c : V n)
    (t : V n) : V n :=
  leastArgmaxD (fun d => scores d t) C c

/-- Contraction engine (spec 4.3): the reweighted score matrix after the
cycle `C` collapses into the single node `c`.  Edges entering the
contracted node carry the best adjusted score over the members; edges
leaving it carry the score of the representative exit member; all other
scores pass through unchanged. -/
def contractScores (scores : V n → V n → ℚ) (h : V n → V n) (C : Finset (V n))
    (c : V n) : V n → V n → ℚ :=
  fun s t =>
    if t = c then enterScore scores h s (enterMember scores h C c s)
    else if s = c then scores (exitMember scores C c t) t
    else scores s t

/-- Expansion engine (spec 4.4): given the solution `hc` of the
contracted problem, re-expand the cycle `C`: the member targeted by the
contracted node's resolved incoming edge takes the external source as
head (breaking its internal edge), every other member keeps its internal
cycle head, and edges that pointed at the contracted node are re-pointed
at their exit member. -/
def expand (scores : V n → V n → ℚ) (h : V n → V n) (C : Finset (V n))
    (c : V n) (hc : V n → V n) : V n → V n :=
  fun x =>
    if x ∈ C then
      if x = enterMember scores h C c (hc c) then hc c else h x
    else if hc x = c then exitMember scores C c x else hc x

/-- Driver (spec 4.5): select candidate heads, detect a cycle, contract
and recurse, then expand.  The fuel argument bounds the recursion depth;
fuel `N` always suffices since every contraction strictly shrinks the
active set. -/
def chuliuFuel : ℕ → (V n → V n → ℚ) → Finset (V n) → Option (V n → V n)
  | 0, _, _ => none
  | fuel + 1, scores, active =>
    let h := select scores active
    let S := cyclicNodes h active
    if hS : S.Nonempty then
      let c := S.min' hS
      let C := orbit h c
      (chuliuFuel fuel (contractScores scores h C c) (insert c (active \ C))).map
        (expand scores h C c)
    else some h

/-- The initial active set: every node except the root. -/
def topActive : Finset (V n) := Finset.univ.erase root

/-- The decoded head assignment for a full sentence. -/
def hFinal (scores : V n → V n → ℚ) : V n → V n :=
  (chuliuFuel (n + 1) scores topActive).getD id

/-- The sentinel stored at the root position of the output head array:
the root has no head. -/
def rootSentinel : ℕ := 0

/-- The decoder's output head array: `head[0]` is the sentinel, `head[i]`
the selected governor of `i`. -/
def decodeClean (scores : V n → V n → ℚ) : List ℕ :=
  (List.finRange (n + 1)).map fun i => (hFinal scores i).val

/-- The only error the decoder surfaces (spec section 7). -/
inductive DecodeError where
  | invalidScoreMatrix
  deriving DecidableEq, Repr

/-- A raw input matrix: rows of possibly-invalid (NaN) float entries,
with `none` standing for NaN. -/
abbrev RawMat := List (List (Option ℚ))

/-- A well-formed input: nonempty, square, and NaN-free (spec section 6). -/
def wellFormedM (m : RawMat) : Prop :=
  m ≠ [] ∧ ∀ row ∈ m, row.length = m.length ∧ ∀ e ∈ row, e ≠ none

instance (m : RawMat) : Decidable (wellFormedM m) := by
  unfold wellFormedM; infer_instance

/-- Score-matrix entry lookup: `scores i j` is the score of `i` governing
`j`. -/
def entryQ (m : RawMat) (i j : ℕ) : ℚ :=
  ((m.getD i []).getD j none).getD 0

/-- The decoder's outer interface: validate the raw matrix, then decode;
a malformed matrix surfaces `InvalidScoreMatrix` and nothing else. -/
def decode : RawMat → Except DecodeError (List ℕ)
  | [] => .error .invalidScoreMatrix
  | r :: rs =>
    if wellFormedM (r :: rs) then
      .ok (decodeClean (n := rs.length) fun i j => entryQ (r :: rs) i.val j.val)
    else .error .invalidScoreMatrix

/-! ### Properties of the arg-max with lowest-index tie break -/

theorem leastArgmaxD_spec (f : V n → ℚ) (s : Finset (V n)) (dflt : V n)
    (hs : s.Nonempty) :
    leastArgmaxD f s dflt ∈ s ∧ (∀ y ∈ s, f y ≤ f (leastArgmaxD f s dflt)) ∧
      ∀ y ∈ s, f y = f (leastArgmaxD f s dflt) → leastArgmaxD f s dflt ≤ y := by
  obtain ⟨b, hb, hmax⟩ := Finset.exists_max_image s f hs
  have ht : (s.filter fun x => ∀ y ∈ s, f y ≤ f x).Nonempty :=
    ⟨b, Finset.mem_filter.mpr ⟨hb, hmax⟩⟩
  rw [leastArgmaxD]
  simp only [dif_pos ht]
  have hmem := Finset.min'_mem _ ht
  rw [Finset.mem_filter] at hmem
  refine ⟨hmem.1, hmem.2, fun y hy hfy => ?_⟩
  apply Finset.min'_le
  rw [Finset.mem_filter]
  exact ⟨hy, fun z hz => (hmem.2 z hz).trans (le_of_eq hfy.symm)⟩

theorem mem_cand (active : Finset (V n)) (d y : V n) :
    y ∈ cand active d ↔ y ≠ d ∧ (y = root ∨ y ∈ active) := by
  simp [cand]

theorem root_mem_cand (active : Finset (V n)) (d : V n) (hroot : root ∉ active)
    (hd : d ∈ active) : root ∈ cand active d :=
  (mem_cand active d root).mpr ⟨fun h => hroot (h ▸ hd), Or.inl rfl⟩

theorem cand_nonempty (active : Finset (V n)) (d : V n) (hroot : root ∉ active)
    (hd : d ∈ active) : (cand active d).Nonempty :=
  ⟨root, root_mem_cand active d hroot hd⟩

/-! ### Properties of the candidate head selector -/

theorem select_of_not_mem (scores : V n → V n → ℚ) (active : Finset (V n))
    (d : V n) (hd : d ∉ active) : select scores active d = d := by
  rw [select, if_neg hd]

theorem select_root (scores : V n → V n → ℚ) (active : Finset (V n))
    (hroot : root ∉ active) : select scores active root = root :=
  select_of_not_mem scores active root hroot

theorem select_mem_cand (scores : V n → V n → ℚ) (active : Finset (V n))
    (d : V n) (hroot : root ∉ active) (hd : d ∈ active) :
    select scores active d ∈ cand active d := by
  rw [select, if_pos hd]
  exact (leastArgmaxD_spec _ _ _ (cand_nonempty active d hroot hd)).1

theorem select_max (scores : V n → V n → ℚ) (active : Finset (V n))
    (d : V n) (hroot : root ∉ active) (hd : d ∈ active) :
    ∀ y ∈ cand active d, scores y d ≤ scores (select scores active d) d := by
  rw [select, if_pos hd]
  exact (leastArgmaxD_spec _ _ _ (cand_nonempty active d hroot hd)).2.1

theorem select_tiebreak (scores : V n → V n → ℚ) (active : Finset (V n))
    (d : V n) (hroot : root ∉ active) (hd : d ∈ active) :
    ∀ y ∈ cand active d, scores y d = scores (select scores active d) d →
      select scores active d ≤ y := by
  rw [select, if_pos hd]
  exact (leastArgmaxD_spec _ _ _ (cand_nonempty active d hroot hd)).2.2

theorem select_ne_self (scores : V n → V n → ℚ) (active : Finset (V n))
    (d : V n) (hroot : root ∉ active) (hd : d ∈ active) :
    select scores active d ≠ d :=
  ((mem_cand active d _).mp (select_mem_cand scores active d hroot hd)).1

theorem select_mem_insert (scores : V n → V n → ℚ) (active : Finset (V n))
    (d : V n) (hroot : root ∉ active) (hd : d ∈ active) :
    select scores active d ∈ insert root active := by
  rcases ((mem_cand active d _).mp (select_mem_cand scores active d hroot hd)).2 with h | h
  · exact h ▸ Finset.mem_insert_self root active
  · exact Finset.mem_insert_of_mem h

/-! ### Cycle membership and reachability -/

/-- Following heads from `x` eventually reaches the root. -/
def reaches (h : V n → V n) (x : V n) : Prop := ∃ k, h^[k] x = root

/-- The total score of a head assignment over the active set. -/
def total (scores : V n → V n → ℚ) (active : Finset (V n)) (h : V n → V n) : ℚ :=
  Finset.sum active fun d => scores (h d) d

theorem mem_cyclicNodes (h : V n → V n) (active : Finset (V n)) (d : V n) :
    d ∈ cyclicNodes h active ↔
      d ∈ active ∧ ∃ k, 1 ≤ k ∧ k ≤ n + 1 ∧ h^[k] d = d := by
  simp only [cyclicNodes, Finset.mem_filter, Finset.filter_nonempty_iff,
    Finset.mem_Icc]
  tauto

theorem iterate_mul_fixed (h : V n → V n) (d : V n) (k : ℕ) (hk : h^[k] d = d) :
    ∀ q, h^[k * q] d = d := by
  intro q
  induction q with
  | zero => simp
  | succ q ih =>
    rw [Nat.mul_succ, Function.iterate_add_apply, hk, ih]

theorem not_reaches_of_cyclic (active : Finset (V n)) (h : V n → V n) (d : V n)
    (hroot : root ∉ active) (hd : d ∈ active) (hfix : h root = root)
    (k : ℕ) (hk : 1 ≤ k) (hcy : h^[k] d = d) : ¬ reaches h d := by
  rintro ⟨M, hM⟩
  have hmul := iterate_mul_fixed h d k hcy (M + 1)
  have hge : M ≤ k * (M + 1) := by nlinarith
  have : h^[k * (M + 1)] d = root := by
    have hsplit : k * (M + 1) = (k * (M + 1) - M) + M := by omega
    rw [hsplit, Function.iterate_add_apply, hM, Function.iterate_fixed hfix]
  rw [hmul] at this
  exact hroot (this ▸ hd)

theorem reaches_of_no_cyclic (active : Finset (V n)) (h : V n → V n)
    (hroot : root ∉ active)
    (hmapsto : ∀ d ∈ active, h d ∈ insert root active)
    (hcyc : cyclicNodes h active = ∅) :
    ∀ d ∈ active, reaches h d := by
  intro d hd
  by_contra hnr
  rw [reaches] at hnr
  push_neg at hnr
  have hin : ∀ k, h^[k] d ∈ active := by
    intro k
    induction k with
    | zero => exact hd
    | succ k ih =>
      rcases Finset.mem_insert.mp (hmapsto _ ih) with hr | ha
      · exact absurd (by rw [Function.iterate_succ_apply']; exact hr) (hnr (k + 1))
      · rw [Function.iterate_succ_apply']; exact ha
  have hlt : active.card < (Finset.range (active.card + 1)).card := by simp
  obtain ⟨i, hi, j, hj, hne, heq⟩ :=
    Finset.exists_ne_map_eq_of_card_lt_of_maps_to hlt
      (fun k _ => hin k : ∀ k ∈ Finset.range (active.card + 1), h^[k] d ∈ active)
  rw [Finset.mem_range] at hi hj
  have hcard : active.card ≤ n + 1 := by
    have := Finset.card_le_univ active
    simpa using this
  rcases Nat.lt_or_ge i j with hij | hij
  · have hx : h^[j - i] (h^[i] d) = h^[i] d := by
      rw [← Function.iterate_add_apply, Nat.sub_add_cancel (le_of_lt hij)]
      exact heq.symm
    have hmem : h^[i] d ∈ cyclicNodes h active :=
      (mem_cyclicNodes h active _).mpr ⟨hin i, j - i, by omega, by omega, hx⟩
    rw [hcyc] at hmem
    exact absurd hmem (Finset.not_mem_empty _)
  · have hij' : j < i := by omega
    have hx : h^[i - j] (h^[j] d) = h^[j] d := by
      rw [← Function.iterate_add_apply, Nat.sub_add_cancel (le_of_lt hij')]
      exact heq
    have hmem : h^[j] d ∈ cyclicNodes h active :=
      (mem_cyclicNodes h active _).mpr ⟨hin j, i - j, by omega, by omega, hx⟩
    rw [hcyc] at hmem
    exact absurd hmem (Finset.not_mem_empty _)

/-! ### Structure of a detected cycle (the orbit of a periodic node) -/

theorem mem_orbit_iff (h : V n → V n) (d₀ x : V n) :
    x ∈ orbit h d₀ ↔ ∃ m, m < n + 1 ∧ h^[m] d₀ = x := by
  simp [orbit]

theorem self_mem_orbit (h : V n → V n) (d₀ : V n) : d₀ ∈ orbit h d₀ :=
  (mem_orbit_iff h d₀ d₀).mpr ⟨0, by omega, rfl⟩

section OrbitPeriodic

variable (h : V n → V n) (d₀ : V n) (k : ℕ)

theorem iterate_mod_period (hk1 : 1 ≤ k) (hcy : h^[k] d₀ = d₀) (m : ℕ) :
    h^[m] d₀ = h^[m % k] d₀ := by
  conv_lhs => rw [← Nat.mod_add_div m k]
  rw [Function.iterate_add_apply, iterate_mul_fixed h d₀ k hcy]

theorem iterate_mem_orbit (hk1 : 1 ≤ k) (hkn : k ≤ n + 1) (hcy : h^[k] d₀ = d₀)
    (m : ℕ) : h^[m] d₀ ∈ orbit h d₀ := by
  rw [iterate_mod_period h d₀ k hk1 hcy m]
  refine (mem_orbit_iff h d₀ _).mpr ⟨m % k, ?_, rfl⟩
  have := Nat.mod_lt m (show 0 < k by omega)
  omega

theorem orbit_closed (hk1 : 1 ≤ k) (hkn : k ≤ n + 1) (hcy : h^[k] d₀ = d₀) :
    ∀ x ∈ orbit h d₀, h x ∈ orbit h d₀ := by
  intro x hx
  obtain ⟨m, _, rfl⟩ := (mem_orbit_iff h d₀ x).mp hx
  have hstep : h (h^[m] d₀) = h^[m + 1] d₀ := (Function.iterate_succ_apply' h m d₀).symm
  rw [hstep]
  exact iterate_mem_orbit h d₀ k hk1 hkn hcy (m + 1)

theorem orbit_reach (hk1 : 1 ≤ k) (hcy : h^[k] d₀ = d₀) :
    ∀ x ∈ orbit h d₀, ∀ y ∈ orbit h d₀, ∃ j, h^[j] x = y := by
  intro x hx y hy
  obtain ⟨a, _, rfl⟩ := (mem_orbit_iff h d₀ x).mp hx
  obtain ⟨b, _, rfl⟩ := (mem_orbit_iff h d₀ y).mp hy
  refine ⟨b + (k - a % k), ?_⟩
  rw [← Function.iterate_add_apply]
  have hmod : a % k ≤ k := le_of_lt (Nat.mod_lt a (by omega))
  have hsplit : b + (k - a % k) + a = b + (k + k * (a / k)) := by
    have := Nat.mod_add_div a k
    omega
  rw [hsplit, Function.iterate_add_apply h b _ d₀]
  have : h^[k + k * (a / k)] d₀ = d₀ := by
    rw [Function.iterate_add_apply, iterate_mul_fixed h d₀ k hcy, hcy]
  rw [this]

theorem iterate_ne_root (hk1 : 1 ≤ k) (hcy : h^[k] d₀ = d₀) (hfix : h root = root)
    (hd₀ : d₀ ≠ root) : ∀ m, h^[m] d₀ ≠ root := by
  intro m hm
  apply hd₀
  have hge : m ≤ k * (m + 1) := by nlinarith
  have : h^[k * (m + 1)] d₀ = root := by
    have hsplit : k * (m + 1) = (k * (m + 1) - m) + m := by omega
    rw [hsplit, Function.iterate_add_apply, hm, Function.iterate_fixed hfix]
  rw [iterate_mul_fixed h d₀ k hcy] at this
  exact this

theorem orbit_subset_active (active : Finset (V n)) (hroot : root ∉ active)
    (hmapsto : ∀ d ∈ active, h d ∈ insert root active) (hfix : h root = root)
    (hd₀ : d₀ ∈ active) (hk1 : 1 ≤ k) (hcy : h^[k] d₀ = d₀) :
    orbit h d₀ ⊆ active := by
  intro x hx
  obtain ⟨m, hmlt, rfl⟩ := (mem_orbit_iff h d₀ x).mp hx
  clear hx hmlt
  induction m with
  | zero => exact hd₀
  | succ m ih =>
    rcases Finset.mem_insert.mp (hmapsto _ ih) with hr | ha
    · exfalso
      refine iterate_ne_root h d₀ k hk1 hcy hfix (fun he => hroot (he ▸ hd₀)) (m + 1) ?_
      rw [Function.iterate_succ_apply']
      exact hr
    · rw [Function.iterate_succ_apply']
      exact ha

theorem orbit_card_two (hk1 : 1 ≤ k) (hkn : k ≤ n + 1) (hcy : h^[k] d₀ = d₀)
    (hne : h d₀ ≠ d₀) : 2 ≤ (orbit h d₀).card := by
  have h1 : d₀ ∈ orbit h d₀ := self_mem_orbit h d₀
  have h2 : h d₀ ∈ orbit h d₀ := orbit_closed h d₀ k hk1 hkn hcy d₀ h1
  have := Finset.one_lt_card.mpr ⟨d₀, h1, h d₀, h2, fun he => hne he.symm⟩
  omega

end OrbitPeriodic

/-! ### Entering and exiting members of a contracted cycle -/

theorem enterMember_mem (scores : V n → V n → ℚ) (h : V n → V n)
    (C : Finset (V n)) (c s : V n) (hC : C.Nonempty) :
    enterMember scores h C c s ∈ C :=
  (leastArgmaxD_spec _ _ _ hC).1

theorem enterMember_max (scores : V n → V n → ℚ) (h : V n → V n)
    (C : Finset (V n)) (c s : V n) (hC : C.Nonempty) :
    ∀ d ∈ C, enterScore scores h s d ≤
      enterScore scores h s (enterMember scores h C c s) :=
  (leastArgmaxD_spec _ _ _ hC).2.1

theorem exitMember_mem (scores : V n → V n → ℚ) (C : Finset (V n)) (c t : V n)
    (hC : C.Nonempty) : exitMember scores C c t ∈ C :=
  (leastArgmaxD_spec _ _ _ hC).1

theorem exitMember_max (scores : V n → V n → ℚ) (C : Finset (V n)) (c t : V n)
    (hC : C.Nonempty) :
    ∀ d ∈ C, scores d t ≤ scores (exitMember scores C c t) t :=
  (leastArgmaxD_spec _ _ _ hC).2.1

/-! ### Case equations for the expansion engine -/

theorem expand_mem_enter (scores : V n → V n → ℚ) (h : V n → V n)
    (C : Finset (V n)) (c : V n) (h2 : V n → V n) (x : V n) (hx : x ∈ C)
    (hxe : x = enterMember scores h C c (h2 c)) :
    expand scores h C c h2 x = h2 c := by
  simp only [expand, if_pos hx, if_pos hxe]

theorem expand_mem_keep (scores : V n → V n → ℚ) (h : V n → V n)
    (C : Finset (V n)) (c : V n) (h2 : V n → V n) (x : V n) (hx : x ∈ C)
    (hxe : x ≠ enterMember scores h C c (h2 c)) :
    expand scores h C c h2 x = h x := by
  simp only [expand, if_pos hx, if_neg hxe]

theorem expand_exit (scores : V n → V n → ℚ) (h : V n → V n)
    (C : Finset (V n)) (c : V n) (h2 : V n → V n) (x : V n) (hx : x ∉ C)
    (hxc : h2 x = c) :
    expand scores h C c h2 x = exitMember scores C c x := by
  simp only [expand, if_neg hx, if_pos hxc]

theorem expand_pass (scores : V n → V n → ℚ) (h : V n → V n)
    (C : Finset (V n)) (c : V n) (h2 : V n → V n) (x : V n) (hx : x ∉ C)
    (hxc : h2 x ≠ c) :
    expand scores h C c h2 x = h2 x := by
  simp only [expand, if_neg hx, if_neg hxc]

theorem iterate_mem_of_closed (h : V n → V n) (C : Finset (V n))
    (hC : ∀ x ∈ C, h x ∈ C) (x : V n) (hx : x ∈ C) :
    ∀ i, h^[i] x ∈ C := by
  intro i
  induction i with
  | zero => exact hx
  | succ i ih =>
    rw [Function.iterate_succ_apply']
    exact hC _ ih

/-- Inside the cycle, the expanded assignment follows the internal cycle
edges until it first hits the member chosen for re-entry. -/
theorem expand_cycle_reaches_enter (scores : V n → V n → ℚ) (h : V n → V n)
    (C : Finset (V n)) (c : V n) (h2 : V n → V n)
    (hCclosed : ∀ x ∈ C, h x ∈ C)
    (hCreach : ∀ x ∈ C, ∀ y ∈ C, ∃ j, h^[j] x = y)
    (hdC : enterMember scores h C c (h2 c) ∈ C)
    (x : V n) (hx : x ∈ C) :
    ∃ j, (expand scores h C c h2)^[j] x = enterMember scores h C c (h2 c) := by
  have hex : ∃ j, h^[j] x = enterMember scores h C c (h2 c) := hCreach x hx _ hdC
  refine ⟨Nat.find hex, ?_⟩
  have hstep : ∀ i, i ≤ Nat.find hex →
      (expand scores h C c h2)^[i] x = h^[i] x := by
    intro i
    induction i with
    | zero => intro _; rfl
    | succ i ih =>
      intro hi
      rw [Function.iterate_succ_apply', Function.iterate_succ_apply',
        ih (by omega)]
      have hmem : h^[i] x ∈ C := iterate_mem_of_closed h C hCclosed x hx i
      have hne : h^[i] x ≠ enterMember scores h C c (h2 c) :=
        Nat.find_min hex (by omega)
      exact expand_mem_keep scores h C c h2 _ hmem hne
  rw [hstep (Nat.find hex) le_rfl]
  exact Nat.find_spec hex

/-- Correctness of the expansion engine: if the contracted problem's
solution is an arborescence over the reduced active set, the expanded
assignment is an arborescence over the original active set. -/
theorem expand_arb (scores : V n → V n → ℚ) (active : Finset (V n))
    (hroot : root ∉ active) (h : V n → V n) (c : V n) (C : Finset (V n))
    (hh_mem : ∀ d ∈ active, h d ∈ insert root active)
    (hh_ne : ∀ d ∈ active, h d ≠ d)
    (hcC : c ∈ C) (hCsub : C ⊆ active)
    (hCclosed : ∀ x ∈ C, h x ∈ C)
    (hCreach : ∀ x ∈ C, ∀ y ∈ C, ∃ j, h^[j] x = y)
    (h2 : V n → V n)
    (H2out : ∀ x, x ∉ insert c (active \ C) → h2 x = x)
    (H2mem : ∀ d ∈ insert c (active \ C), h2 d ∈ insert root (insert c (active \ C)))
    (H2ne : ∀ d ∈ insert c (active \ C), h2 d ≠ d)
    (H2reach : ∀ d ∈ insert c (active \ C), reaches h2 d) :
    (∀ x, x ∉ active → expand scores h C c h2 x = x) ∧
      (∀ d ∈ active, expand scores h C c h2 d ∈ insert root active) ∧
      (∀ d ∈ active, expand scores h C c h2 d ≠ d) ∧
      (∀ d ∈ active, reaches (expand scores h C c h2) d) := by
  have hCne : C.Nonempty := ⟨c, hcC⟩
  have hcact : c ∈ active := hCsub hcC
  have hrC : root ∉ C := fun hr => hroot (hCsub hr)
  have hsub' : insert c (active \ C) ⊆ active := by
    intro x hx
    rcases Finset.mem_insert.mp hx with rfl | hx
    · exact hcact
    · exact (Finset.mem_sdiff.mp hx).1
  have hroot' : root ∉ insert c (active \ C) := fun hr => hroot (hsub' hr)
  have hcmem' : c ∈ insert c (active \ C) := Finset.mem_insert_self _ _
  have hs_ne : h2 c ≠ c := H2ne c hcmem'
  have hs_mem : h2 c ∈ insert root (insert c (active \ C)) := H2mem c hcmem'
  have hs_notC : h2 c ∉ C := by
    rcases Finset.mem_insert.mp hs_mem with hr | hm
    · exact hr ▸ hrC
    · rcases Finset.mem_insert.mp hm with he | hm
      · exact absurd he hs_ne
      · exact (Finset.mem_sdiff.mp hm).2
  have hs_ra : h2 c = root ∨ h2 c ∈ active := by
    rcases Finset.mem_insert.mp hs_mem with hr | hm
    · exact Or.inl hr
    · exact Or.inr (hsub' hm)
  have hdC : enterMember scores h C c (h2 c) ∈ C :=
    enterMember_mem scores h C c (h2 c) hCne
  have hfix : expand scores h C c h2 root = root := by
    have h2r : h2 root = root := H2out root hroot'
    rw [expand_pass scores h C c h2 root hrC (by rw [h2r]; exact fun he => hroot (he ▸ hcact))]
    exact h2r
  -- identity outside the active set
  have hout : ∀ x, x ∉ active → expand scores h C c h2 x = x := by
    intro x hx
    have hxC : x ∉ C := fun hm => hx (hCsub hm)
    have hx' : x ∉ insert c (active \ C) := fun hm => hx (hsub' hm)
    have h2x : h2 x = x := H2out x hx'
    rw [expand_pass scores h C c h2 x hxC (by rw [h2x]; exact fun he => hx (he ▸ hcact))]
    exact h2x
  -- heads stay inside the graph and are never the node itself
  have hmemne : ∀ d ∈ active, expand scores h C c h2 d ∈ insert root active ∧
      expand scores h C c h2 d ≠ d := by
    intro d hd
    by_cases hdCm : d ∈ C
    · by_cases hde : d = enterMember scores h C c (h2 c)
      · rw [expand_mem_enter scores h C c h2 d hdCm hde]
        constructor
        · rcases hs_ra with hr | ha
          · exact hr ▸ Finset.mem_insert_self _ _
          · exact Finset.mem_insert_of_mem ha
        · exact fun he => hs_notC (he ▸ hdCm)
      · rw [expand_mem_keep scores h C c h2 d hdCm hde]
        exact ⟨hh_mem d hd, hh_ne d hd⟩
    · have hd' : d ∈ insert c (active \ C) :=
        Finset.mem_insert_of_mem (Finset.mem_sdiff.mpr ⟨hd, hdCm⟩)
      by_cases hdc : h2 d = c
      · rw [expand_exit scores h C c h2 d hdCm hdc]
        refine ⟨Finset.mem_insert_of_mem (hCsub (exitMember_mem scores C c d hCne)), ?_⟩
        exact fun he => hdCm (he ▸ exitMember_mem scores C c d hCne)
      · rw [expand_pass scores h C c h2 d hdCm hdc]
        constructor
        · rcases Finset.mem_insert.mp (H2mem d hd') with hr | hm
          · exact hr ▸ Finset.mem_insert_self _ _
          · exact Finset.mem_insert_of_mem (hsub' hm)
        · exact H2ne d hd'
  -- reachability transfer
  have htransfer : ∀ k, ∀ x, (x = root ∨ x ∈ active) →
      h2^[k] (if x ∈ C then c else x) = root →
      reaches (expand scores h C c h2) x := by
    intro k
    induction k using Nat.strong_induction_on with
    | _ k ih =>
      intro x hx hk
      rcases hx with rfl | hxa
      · exact ⟨0, rfl⟩
      by_cases hxC : x ∈ C
      · rw [if_pos hxC] at hk
        have hkpos : 1 ≤ k := by
          rcases Nat.eq_zero_or_pos k with rfl | hp
          · exact absurd hk (fun he => hroot (he ▸ hcact))
          · exact hp
        obtain ⟨j, hj⟩ := expand_cycle_reaches_enter scores h C c h2 hCclosed
          hCreach hdC x hxC
        have hstep : (expand scores h C c h2)^[j + 1] x = h2 c := by
          rw [Function.iterate_succ_apply', hj]
          exact expand_mem_enter scores h C c h2 _ hdC rfl
        have hs_pi : (if h2 c ∈ C then c else h2 c) = h2 c := if_neg hs_notC
        have hk' : h2^[k - 1] (if h2 c ∈ C then c else h2 c) = root := by
          rw [hs_pi]
          have : h2^[k] c = h2^[k - 1] (h2 c) := by
            conv_lhs => rw [show k = (k - 1) + 1 by omega]
            rw [Function.iterate_succ_apply]
          rw [← this]
          exact hk
        obtain ⟨m, hm⟩ := ih (k - 1) (by omega) (h2 c) hs_ra hk'
        refine ⟨m + (j + 1), ?_⟩
        rw [Function.iterate_add_apply, hstep, hm]
      · rw [if_neg hxC] at hk
        have hx' : x ∈ insert c (active \ C) :=
          Finset.mem_insert_of_mem (Finset.mem_sdiff.mpr ⟨hxa, hxC⟩)
        have hkpos : 1 ≤ k := by
          rcases Nat.eq_zero_or_pos k with rfl | hp
          · exact absurd hk (fun he => hroot (he ▸ hxa))
          · exact hp
        have hk1 : h2^[k - 1] (h2 x) = root := by
          have : h2^[k] x = h2^[k - 1] (h2 x) := by
            conv_lhs => rw [show k = (k - 1) + 1 by omega]
            rw [Function.iterate_succ_apply]
          rw [← this]
          exact hk
        by_cases hxc : h2 x = c
        · have hEx : expand scores h C c h2 x = exitMember scores C c x :=
            expand_exit scores h C c h2 x hxC hxc
          have heC : exitMember scores C c x ∈ C := exitMember_mem scores C c x hCne
          have hk'' : h2^[k - 1]
              (if exitMember scores C c x ∈ C then c else exitMember scores C c x) = root := by
            rw [if_pos heC, ← hxc]
            exact hk1
          obtain ⟨m, hm⟩ := ih (k - 1) (by omega) (exitMember scores C c x)
            (Or.inr (hCsub heC)) hk''
          refine ⟨m + 1, ?_⟩
          rw [Function.iterate_add_apply, Function.iterate_one, hEx, hm]
        · have hEx : expand scores h C c h2 x = h2 x :=
            expand_pass scores h C c h2 x hxC hxc
          have hh2x_notC : h2 x ∉ C := by
            rcases Finset.mem_insert.mp (H2mem x hx') with hr | hm
            · exact hr ▸ hrC
            · rcases Finset.mem_insert.mp hm with he | hm
              · exact absurd he hxc
              · exact (Finset.mem_sdiff.mp hm).2
          have hh2x_ra : h2 x = root ∨ h2 x ∈ active := by
            rcases Finset.mem_insert.mp (H2mem x hx') with hr | hm
            · exact Or.inl hr
            · exact Or.inr (hsub' hm)
          have hk'' : h2^[k - 1] (if h2 x ∈ C then c else h2 x) = root := by
            rw [if_neg hh2x_notC]
            exact hk1
          obtain ⟨m, hm⟩ := ih (k - 1) (by omega) (h2 x) hh2x_ra hk''
          refine ⟨m + 1, ?_⟩
          rw [Function.iterate_add_apply, Function.iterate_one, hEx, hm]
  refine ⟨hout, fun d hd => (hmemne d hd).1, fun d hd => (hmemne d hd).2, ?_⟩
  intro d hd
  have hpi : (if d ∈ C then c else d) ∈ insert c (active \ C) := by
    by_cases hdCm : d ∈ C
    · rw [if_pos hdCm]; exact hcmem'
    · rw [if_neg hdCm]
      exact Finset.mem_insert_of_mem (Finset.mem_sdiff.mpr ⟨hd, hdCm⟩)
  obtain ⟨k, hk⟩ := H2reach _ hpi
  exact htransfer k d (Or.inr hd) hk

/-- Score accounting for expansion: the expanded assignment's total score
is the contracted solution's total plus the weight of the cycle's internal
edges. -/
theorem expand_total (scores : V n → V n → ℚ) (active : Finset (V n))
    (h : V n → V n) (c : V n) (C : Finset (V n)) (h2 : V n → V n)
    (hcC : c ∈ C) (hCsub : C ⊆ active) :
    total scores active (expand scores h C c h2) =
      total (contractScores scores h C c) (insert c (active \ C)) h2 +
        Finset.sum C (fun d => scores (h d) d) := by
  have hCne : C.Nonempty := ⟨c, hcC⟩
  have hdC : enterMember scores h C c (h2 c) ∈ C :=
    enterMember_mem scores h C c (h2 c) hCne
  rw [total, ← Finset.sum_sdiff hCsub]
  have h1 : ∀ d ∈ active \ C, scores (expand scores h C c h2 d) d =
      contractScores scores h C c (h2 d) d := by
    intro d hd
    obtain ⟨hda, hdC'⟩ := Finset.mem_sdiff.mp hd
    have hdc : d ≠ c := fun he => hdC' (he ▸ hcC)
    by_cases hxc : h2 d = c
    · rw [expand_exit scores h C c h2 d hdC' hxc]
      simp only [contractScores, if_neg hdc, if_pos hxc]
    · rw [expand_pass scores h C c h2 d hdC' hxc]
      simp only [contractScores, if_neg hdc, if_neg hxc]
  rw [Finset.sum_congr rfl h1]
  have h2sum : Finset.sum C (fun d => scores (expand scores h C c h2 d) d) =
      contractScores scores h C c (h2 c) c +
        Finset.sum C (fun d => scores (h d) d) := by
    rw [← Finset.sum_erase_add C _ hdC]
    have hkeep : ∀ d ∈ C.erase (enterMember scores h C c (h2 c)),
        scores (expand scores h C c h2 d) d = scores (h d) d := by
      intro d hd
      rw [expand_mem_keep scores h C c h2 d (Finset.mem_of_mem_erase hd)
        (Finset.ne_of_mem_erase hd)]
    rw [Finset.sum_congr rfl hkeep]
    have henter : scores
        (expand scores h C c h2 (enterMember scores h C c (h2 c)))
        (enterMember scores h C c (h2 c)) =
        contractScores scores h C c (h2 c) c +
          scores (h (enterMember scores h C c (h2 c)))
            (enterMember scores h C c (h2 c)) := by
      rw [expand_mem_enter scores h C c h2 _ hdC rfl]
      simp only [contractScores, eq_self_iff_true, ite_true, enterScore]
      ring
    rw [henter, ← Finset.sum_erase_add C (fun d => scores (h d) d) hdC]
    ring
  rw [h2sum, total, Finset.sum_insert
    (fun hm => (Finset.mem_sdiff.mp hm).2 hcC)]
  ring

/-! ### Contracting an arbitrary arborescence

For the optimality argument, any arborescence `A` of the original problem
is mapped to an arborescence of the contracted problem whose total
adjusted score is at least `total A` minus the cycle weight.  The
contracted node inherits the incoming edge of the last cycle member on
the head path from `c` to the root, so the projected path cannot re-enter
the cycle. -/

/-- The projection of an arborescence `A` onto the contracted node set:
nodes keep their head unless it lies in the cycle (then they point at the
contracted node `c`), and `c` takes the head of the chosen member `dhat`. -/
def contractA (active C : Finset (V n)) (c dhat : V n) (A : V n → V n) :
    V n → V n :=
  fun x =>
    if x = c then A dhat
    else if x ∈ active \ C then (if A x ∈ C then c else A x) else x

theorem contractA_out (active C : Finset (V n)) (c dhat : V n) (A : V n → V n) :
    ∀ x, x ∉ insert c (active \ C) → contractA active C c dhat A x = x := by
  intro x hx
  rw [Finset.mem_insert] at hx
  push_neg at hx
  rw [contractA]
  simp only [if_neg hx.1, if_neg hx.2]

theorem contractA_mem_ne (active C : Finset (V n)) (c dhat : V n) (A : V n → V n)
    (hroot : root ∉ active) (hcC : c ∈ C) (hCsub : C ⊆ active)
    (hdhatC : dhat ∈ C) (hAd_notC : A dhat ∉ C)
    (hA_mem : ∀ d ∈ active, A d ∈ insert root active)
    (hA_ne : ∀ d ∈ active, A d ≠ d) :
    ∀ d ∈ insert c (active \ C),
      contractA active C c dhat A d ∈ insert root (insert c (active \ C)) ∧
        contractA active C c dhat A d ≠ d := by
  intro d hd
  rcases Finset.mem_insert.mp hd with rfl | hd'
  · rw [contractA, if_pos rfl]
    refine ⟨?_, fun he => hAd_notC (he ▸ hcC)⟩
    rcases Finset.mem_insert.mp (hA_mem dhat (hCsub hdhatC)) with hr | ha
    · exact hr ▸ Finset.mem_insert_self _ _
    · exact Finset.mem_insert_of_mem
        (Finset.mem_insert_of_mem (Finset.mem_sdiff.mpr ⟨ha, hAd_notC⟩))
  · obtain ⟨hda, hdC⟩ := Finset.mem_sdiff.mp hd'
    have hdc : d ≠ c := fun he => hdC (he ▸ hcC)
    rw [contractA, if_neg hdc, if_pos hd']
    by_cases hAC : A d ∈ C
    · rw [if_pos hAC]
      exact ⟨Finset.mem_insert_of_mem (Finset.mem_insert_self _ _),
        fun he => hdC (he ▸ hcC)⟩
    · rw [if_neg hAC]
      refine ⟨?_, hA_ne d hda⟩
      rcases Finset.mem_insert.mp (hA_mem d hda) with hr | ha
      · exact hr ▸ Finset.mem_insert_self _ _
      · exact Finset.mem_insert_of_mem
          (Finset.mem_insert_of_mem (Finset.mem_sdiff.mpr ⟨ha, hAC⟩))

theorem contractA_reach_c (active C : Finset (V n)) (c : V n) (A : V n → V n)
    (hroot : root ∉ active) (hcC : c ∈ C) (hCsub : C ⊆ active)
    (hA_out : ∀ x, x ∉ active → A x = x)
    (jhat K : ℕ) (hjK : jhat < K) (hK : A^[K] c = root)
    (htail : ∀ m, jhat < m → A^[m] c ∉ C) :
    reaches (contractA active C c (A^[jhat] c) A) c := by
  have hstep : ∀ i, i + jhat + 1 ≤ K →
      (contractA active C c (A^[jhat] c) A)^[i + 1] c = A^[jhat + 1 + i] c := by
    intro i
    induction i with
    | zero =>
      intro _
      show contractA active C c (A^[jhat] c) A c = A^[jhat + 1 + 0] c
      rw [contractA, if_pos rfl, ← Function.iterate_succ_apply' A jhat c]
    | succ i ih =>
      intro hi
      rw [Function.iterate_succ_apply' _ (i + 1) c, ih (by omega)]
      have hyC : A^[jhat + 1 + i] c ∉ C := htail _ (by omega)
      have hyc : A^[jhat + 1 + i] c ≠ c := fun he => hyC (by rw [he]; exact hcC)
      have hAy : A (A^[jhat + 1 + i] c) = A^[jhat + 1 + (i + 1)] c := by
        rw [← Function.iterate_succ_apply' A (jhat + 1 + i) c]
        rfl
      by_cases hya : A^[jhat + 1 + i] c ∈ active
      · rw [contractA, if_neg hyc, if_pos (Finset.mem_sdiff.mpr ⟨hya, hyC⟩)]
        have hAyC : A (A^[jhat + 1 + i] c) ∉ C := by
          rw [hAy]; exact htail _ (by omega)
        rw [if_neg hAyC]
        exact hAy
      · rw [contractA, if_neg hyc,
          if_neg (fun hm => hya (Finset.mem_sdiff.mp hm).1)]
        rw [← hAy, hA_out _ hya]
  refine ⟨K - jhat, ?_⟩
  have := hstep (K - jhat - 1) (by omega)
  rw [show K - jhat - 1 + 1 = K - jhat by omega] at this
  rw [this, show jhat + 1 + (K - jhat - 1) = K by omega]
  exact hK

theorem contractA_reach_all (active C : Finset (V n)) (c dhat : V n)
    (A : V n → V n) (hroot : root ∉ active) (hcC : c ∈ C) (hCsub : C ⊆ active)
    (hA_mem : ∀ d ∈ active, A d ∈ insert root active)
    (hA_reach : ∀ d ∈ active, reaches A d)
    (hW1 : reaches (contractA active C c dhat A) c) :
    ∀ d ∈ insert c (active \ C), reaches (contractA active C c dhat A) d := by
  have hcact : c ∈ active := hCsub hcC
  have hW2 : ∀ k, ∀ x, (x = root ∨ x ∈ active \ C) → A^[k] x = root →
      reaches (contractA active C c dhat A) x := by
    intro k
    induction k using Nat.strong_induction_on with
    | _ k ih =>
      intro x hx hk
      rcases hx with rfl | hx'
      · exact ⟨0, rfl⟩
      obtain ⟨hxa, hxC⟩ := Finset.mem_sdiff.mp hx'
      have hxc : x ≠ c := fun he => hxC (he ▸ hcC)
      have hkpos : 1 ≤ k := by
        rcases Nat.eq_zero_or_pos k with rfl | hp
        · exact absurd hk (fun he => hroot (he ▸ hxa))
        · exact hp
      have hk1 : A^[k - 1] (A x) = root := by
        have : A^[k] x = A^[k - 1] (A x) := by
          conv_lhs => rw [show k = (k - 1) + 1 by omega]
          rw [Function.iterate_succ_apply]
        rw [← this]; exact hk
      by_cases hAC : A x ∈ C
      · have hBx : contractA active C c dhat A x = c := by
          rw [contractA, if_neg hxc, if_pos hx', if_pos hAC]
        obtain ⟨m, hm⟩ := hW1
        refine ⟨m + 1, ?_⟩
        rw [Function.iterate_add_apply, Function.iterate_one, hBx, hm]
      · have hBx : contractA active C c dhat A x = A x := by
          rw [contractA, if_neg hxc, if_pos hx', if_neg hAC]
        have hAx_ra : A x = root ∨ A x ∈ active \ C := by
          rcases Finset.mem_insert.mp (hA_mem x hxa) with hr | ha
          · exact Or.inl hr
          · exact Or.inr (Finset.mem_sdiff.mpr ⟨ha, hAC⟩)
        obtain ⟨m, hm⟩ := ih (k - 1) (by omega) (A x) hAx_ra hk1
        refine ⟨m + 1, ?_⟩
        rw [Function.iterate_add_apply, Function.iterate_one, hBx, hm]
  intro d hd
  rcases Finset.mem_insert.mp hd with rfl | hd'
  · exact hW1
  · obtain ⟨k, hk⟩ := hA_reach d (Finset.mem_sdiff.mp hd').1
    exact hW2 k d (Or.inr hd') hk

theorem contractA_total_le (scores : V n → V n → ℚ) (active : Finset (V n))
    (h : V n → V n) (c dhat : V n) (C : Finset (V n)) (A : V n → V n)
    (hcC : c ∈ C) (hCsub : C ⊆ active)
    (hh_max : ∀ d ∈ C, ∀ y ∈ cand active d, scores y d ≤ scores (h d) d)
    (hdhatC : dhat ∈ C) (hAd_notC : A dhat ∉ C)
    (hA_mem : ∀ d ∈ active, A d ∈ insert root active)
    (hA_ne : ∀ d ∈ active, A d ≠ d) :
    total scores active A ≤
      total (contractScores scores h C c) (insert c (active \ C))
        (contractA active C c dhat A) +
        Finset.sum C (fun d => scores (h d) d) := by
  have hCne : C.Nonempty := ⟨c, hcC⟩
  have hA_cand : ∀ d ∈ C, A d ∈ cand active d := by
    intro d hd
    exact (mem_cand active d (A d)).mpr ⟨hA_ne d (hCsub hd), by
      rcases Finset.mem_insert.mp (hA_mem d (hCsub hd)) with hr | ha
      · exact Or.inl hr
      · exact Or.inr ha⟩
  rw [total, ← Finset.sum_sdiff hCsub]
  -- the part outside the cycle
  have h1 : ∀ d ∈ active \ C, scores (A d) d ≤
      contractScores scores h C c (contractA active C c dhat A d) d := by
    intro d hd
    obtain ⟨hda, hdC⟩ := Finset.mem_sdiff.mp hd
    have hdc : d ≠ c := fun he => hdC (he ▸ hcC)
    by_cases hAC : A d ∈ C
    · have hB : contractA active C c dhat A d = c := by
        rw [contractA, if_neg hdc, if_pos hd, if_pos hAC]
      rw [hB]
      simp only [contractScores, if_neg hdc, if_pos (rfl : c = c)]
      exact exitMember_max scores C c d hCne (A d) hAC
    · have hB : contractA active C c dhat A d = A d := by
        rw [contractA, if_neg hdc, if_pos hd, if_neg hAC]
      rw [hB]
      have hAc : A d ≠ c := fun he => hAC (by rw [he]; exact hcC)
      simp only [contractScores, if_neg hdc, if_neg hAc]
      exact le_rfl
  -- the part inside the cycle
  have h2 : Finset.sum C (fun d => scores (A d) d) ≤
      contractScores scores h C c (contractA active C c dhat A c) c +
        Finset.sum C (fun d => scores (h d) d) := by
    rw [← Finset.sum_erase_add C _ hdhatC,
      ← Finset.sum_erase_add C (fun d => scores (h d) d) hdhatC]
    have hBc : contractA active C c dhat A c = A dhat := by
      rw [contractA, if_pos rfl]
    rw [hBc]
    have hrest : Finset.sum (C.erase dhat) (fun d => scores (A d) d) ≤
        Finset.sum (C.erase dhat) (fun d => scores (h d) d) := by
      apply Finset.sum_le_sum
      intro d hd
      exact hh_max d (Finset.mem_of_mem_erase hd) (A d)
        (hA_cand d (Finset.mem_of_mem_erase hd))
    have hdhat : scores (A dhat) dhat ≤
        contractScores scores h C c (A dhat) c + scores (h dhat) dhat := by
      simp only [contractScores, eq_self_iff_true, ite_true]
      have hmax := enterMember_max scores h C c (A dhat) hCne dhat hdhatC
      have hunf : enterScore scores h (A dhat) dhat =
          scores (A dhat) dhat - scores (h dhat) dhat := rfl
      linarith
    linarith
  calc Finset.sum (active \ C) (fun d => scores (A d) d) +
        Finset.sum C (fun d => scores (A d) d)
      ≤ Finset.sum (active \ C)
          (fun d => contractScores scores h C c (contractA active C c dhat A d) d) +
          (contractScores scores h C c (contractA active C c dhat A c) c +
            Finset.sum C (fun d => scores (h d) d)) := by
        exact add_le_add (Finset.sum_le_sum h1) h2
    _ = total (contractScores scores h C c) (insert c (active \ C))
          (contractA active C c dhat A) +
          Finset.sum C (fun d => scores (h d) d) := by
        rw [total, Finset.sum_insert (fun hm => (Finset.mem_sdiff.mp hm).2 hcC)]
        ring

theorem chuliuFuel_succ (fuel : ℕ) (scores : V n → V n → ℚ)
    (active : Finset (V n)) :
    chuliuFuel (fuel + 1) scores active =
      if hS : (cyclicNodes (select scores active) active).Nonempty then
        (chuliuFuel fuel
          (contractScores scores (select scores active)
            (orbit (select scores active)
              ((cyclicNodes (select scores active) active).min' hS))
            ((cyclicNodes (select scores active) active).min' hS))
          (insert ((cyclicNodes (select scores active) active).min' hS)
            (active \ orbit (select scores active)
              ((cyclicNodes (select scores active) active).min' hS)))).map
          (expand scores (select scores active)
            (orbit (select scores active)
              ((cyclicNodes (select scores active) active).min' hS))
            ((cyclicNodes (select scores active) active).min' hS))
      else some (select scores active) := rfl

/-- On the head path of an arborescence `A` from the cycle member `c` to
the root, there is a last moment at which the path is inside the cycle;
after it the path never meets the cycle again. -/
theorem last_cycle_member (active C : Finset (V n)) (c : V n) (A : V n → V n)
    (hroot : root ∉ active) (hcact : c ∈ active) (hcC : c ∈ C)
    (hCsub : C ⊆ active) (hA_out : ∀ x, x ∉ active → A x = x)
    (hreach : reaches A c) :
    ∃ jhat K, jhat < K ∧ A^[K] c = root ∧ A^[jhat] c ∈ C ∧
      ∀ m, jhat < m → A^[m] c ∉ C := by
  classical
  have hAroot : A root = root := hA_out root hroot
  obtain ⟨K₀, hK₀⟩ := hreach
  have hex : ∃ k, A^[k] c = root := ⟨K₀, hK₀⟩
  have hK : A^[Nat.find hex] c = root := Nat.find_spec hex
  have hKpos : 0 < Nat.find hex := by
    rcases Nat.eq_zero_or_pos (Nat.find hex) with h0 | hp
    · exfalso
      rw [h0] at hK
      simp only [Function.iterate_zero, id_eq] at hK
      exact hroot (hK ▸ hcact)
    · exact hp
  have hJne : ((Finset.range (Nat.find hex)).filter
      (fun j => A^[j] c ∈ C)).Nonempty := by
    refine ⟨0, ?_⟩
    rw [Finset.mem_filter, Finset.mem_range]
    exact ⟨hKpos, by simpa using hcC⟩
  have hjmem := Finset.max'_mem _ hJne
  rw [Finset.mem_filter, Finset.mem_range] at hjmem
  refine ⟨((Finset.range (Nat.find hex)).filter
    (fun j => A^[j] c ∈ C)).max' hJne, Nat.find hex, hjmem.1, hK, hjmem.2, ?_⟩
  intro m hm hmC
  by_cases hmK : m < Nat.find hex
  · have hmJ : m ∈ (Finset.range (Nat.find hex)).filter (fun j => A^[j] c ∈ C) := by
      rw [Finset.mem_filter, Finset.mem_range]; exact ⟨hmK, hmC⟩
    have := Finset.le_max' _ m hmJ
    omega
  · push_neg at hmK
    have hmr : A^[m] c = root := by
      have hsplit : A^[m] c = A^[m - Nat.find hex] (A^[Nat.find hex] c) := by
        rw [← Function.iterate_add_apply]
        congr 1
        omega
      rw [hsplit, hK, Function.iterate_fixed hAroot]
    rw [hmr] at hmC
    exact hroot (hCsub hmC)

/-- Full correctness of the driver: with enough fuel it succeeds, its
result is an arborescence over the active set (identity elsewhere, heads
in the graph, no self-loops, every active node reaching the root), and
its total score is at least that of every arborescence. -/
theorem chuliuFuel_spec (fuel : ℕ) :
    ∀ (scores : V n → V n → ℚ) (active : Finset (V n)),
      root ∉ active → active.card < fuel →
      ∃ h, chuliuFuel fuel scores active = some h ∧
        (∀ x, x ∉ active → h x = x) ∧
        (∀ d ∈ active, h d ∈ insert root active) ∧
        (∀ d ∈ active, h d ≠ d) ∧
        (∀ d ∈ active, reaches h d) ∧
        ∀ A : V n → V n, (∀ x, x ∉ active → A x = x) →
          (∀ d ∈ active, A d ∈ insert root active) →
          (∀ d ∈ active, A d ≠ d) →
          (∀ d ∈ active, reaches A d) →
          total scores active A ≤ total scores active h := by
  induction fuel with
  | zero =>
    intro scores active _ hcard
    omega
  | succ fuel ih =>
    intro scores active hroot hcard
    by_cases hS : (cyclicNodes (select scores active) active).Nonempty
    · -- a cycle was detected: contract and recurse
      obtain ⟨hcact, k, hk1, hkn, hcy⟩ :=
        (mem_cyclicNodes (select scores active) active _).mp
          (Finset.min'_mem _ hS)
      have hfix : select scores active root = root := select_root scores active hroot
      have hh_mem : ∀ d ∈ active, select scores active d ∈ insert root active :=
        fun d hd => select_mem_insert scores active d hroot hd
      have hh_ne : ∀ d ∈ active, select scores active d ≠ d :=
        fun d hd => select_ne_self scores active d hroot hd
      have hcC : (cyclicNodes (select scores active) active).min' hS ∈
          orbit (select scores active) ((cyclicNodes (select scores active) active).min' hS) :=
        self_mem_orbit _ _
      have hCsub := orbit_subset_active (select scores active)
        ((cyclicNodes (select scores active) active).min' hS) k active hroot
        hh_mem hfix hcact hk1 hcy
      have hCclosed := orbit_closed (select scores active)
        ((cyclicNodes (select scores active) active).min' hS) k hk1 hkn hcy
      have hCreach := orbit_reach (select scores active)
        ((cyclicNodes (select scores active) active).min' hS) k hk1 hcy
      have hC2 := orbit_card_two (select scores active)
        ((cyclicNodes (select scores active) active).min' hS) k hk1 hkn hcy
        (hh_ne _ hcact)
      have hroot2 : root ∉ insert ((cyclicNodes (select scores active) active).min' hS)
          (active \ orbit (select scores active)
            ((cyclicNodes (select scores active) active).min' hS)) := by
        rw [Finset.mem_insert]
        push_neg
        exact ⟨fun he => hroot (he ▸ hcact),
          fun hm => hroot (Finset.mem_sdiff.mp hm).1⟩
      have hcnotin : (cyclicNodes (select scores active) active).min' hS ∉
          active \ orbit (select scores active)
            ((cyclicNodes (select scores active) active).min' hS) :=
        fun hm => (Finset.mem_sdiff.mp hm).2 hcC
      have hcard2 : (insert ((cyclicNodes (select scores active) active).min' hS)
          (active \ orbit (select scores active)
            ((cyclicNodes (select scores active) active).min' hS))).card < fuel := by
        rw [Finset.card_insert_of_not_mem hcnotin, Finset.card_sdiff hCsub]
        have := Finset.card_le_card hCsub
        omega
      obtain ⟨h2, heq2, H2out, H2mem, H2ne, H2reach, H2opt⟩ :=
        ih (contractScores scores (select scores active)
            (orbit (select scores active)
              ((cyclicNodes (select scores active) active).min' hS))
            ((cyclicNodes (select scores active) active).min' hS))
          (insert ((cyclicNodes (select scores active) active).min' hS)
            (active \ orbit (select scores active)
              ((cyclicNodes (select scores active) active).min' hS)))
          hroot2 hcard2
      obtain ⟨Eout, Emem, Ene, Ereach⟩ := expand_arb scores active hroot
        (select scores active) ((cyclicNodes (select scores active) active).min' hS)
        (orbit (select scores active)
          ((cyclicNodes (select scores active) active).min' hS))
        hh_mem hh_ne hcC hCsub hCclosed hCreach h2 H2out
        (fun d hd => (H2mem d hd)) (fun d hd => (H2ne d hd)) H2reach
      refine ⟨expand scores (select scores active)
        (orbit (select scores active)
          ((cyclicNodes (select scores active) active).min' hS))
        ((cyclicNodes (select scores active) active).min' hS) h2,
        ?_, Eout, Emem, Ene, Ereach, ?_⟩
      · rw [chuliuFuel_succ, dif_pos hS, heq2]
        rfl
      · -- optimality
        intro A hA_out hA_mem hA_ne hA_reach
        obtain ⟨jhat, K, hjK, hK, hjC, htail⟩ := last_cycle_member active
          (orbit (select scores active)
            ((cyclicNodes (select scores active) active).min' hS))
          ((cyclicNodes (select scores active) active).min' hS) A hroot hcact hcC
          hCsub hA_out (hA_reach _ hcact)
        have hAd_notC : A (A^[jhat] ((cyclicNodes (select scores active) active).min' hS)) ∉
            orbit (select scores active)
              ((cyclicNodes (select scores active) active).min' hS) := by
          have hstep : A (A^[jhat] ((cyclicNodes (select scores active) active).min' hS)) =
              A^[jhat + 1] ((cyclicNodes (select scores active) active).min' hS) :=
            (Function.iterate_succ_apply' A jhat _).symm
          rw [hstep]
          exact htail (jhat + 1) (by omega)
        have hBout := contractA_out active
          (orbit (select scores active)
            ((cyclicNodes (select scores active) active).min' hS))
          ((cyclicNodes (select scores active) active).min' hS)
          (A^[jhat] ((cyclicNodes (select scores active) active).min' hS)) A
        have hBmemne := contractA_mem_ne active
          (orbit (select scores active)
            ((cyclicNodes (select scores active) active).min' hS))
          ((cyclicNodes (select scores active) active).min' hS)
          (A^[jhat] ((cyclicNodes (select scores active) active).min' hS)) A
          hroot hcC hCsub hjC hAd_notC hA_mem hA_ne
        have hBreachc := contractA_reach_c active
          (orbit (select scores active)
            ((cyclicNodes (select scores active) active).min' hS))
          ((cyclicNodes (select scores active) active).min' hS) A
          hroot hcC hCsub hA_out jhat K hjK hK htail
        have hBreach := contractA_reach_all active
          (orbit (select scores active)
            ((cyclicNodes (select scores active) active).min' hS))
          ((cyclicNodes (select scores active) active).min' hS)
          (A^[jhat] ((cyclicNodes (select scores active) active).min' hS)) A
          hroot hcC hCsub hA_mem hA_reach hBreachc
        have hh_max : ∀ d ∈ orbit (select scores active)
            ((cyclicNodes (select scores active) active).min' hS),
            ∀ y ∈ cand active d, scores y d ≤ scores (select scores active d) d :=
          fun d hd => select_max scores active d hroot (hCsub hd)
        have hle1 := contractA_total_le scores active (select scores active)
          ((cyclicNodes (select scores active) active).min' hS)
          (A^[jhat] ((cyclicNodes (select scores active) active).min' hS))
          (orbit (select scores active)
            ((cyclicNodes (select scores active) active).min' hS)) A
          hcC hCsub hh_max hjC hAd_notC hA_mem hA_ne
        have hle2 := H2opt (contractA active
            (orbit (select scores active)
              ((cyclicNodes (select scores active) active).min' hS))
            ((cyclicNodes (select scores active) active).min' hS)
            (A^[jhat] ((cyclicNodes (select scores active) active).min' hS)) A)
          hBout (fun d hd => (hBmemne d hd).1) (fun d hd => (hBmemne d hd).2)
          hBreach
        have heqt := expand_total scores active (select scores active)
          ((cyclicNodes (select scores active) active).min' hS)
          (orbit (select scores active)
            ((cyclicNodes (select scores active) active).min' hS)) h2 hcC hCsub
        rw [heqt]
        linarith
    · -- no cycle: the greedy selection is returned as is
      have hempty : cyclicNodes (select scores active) active = ∅ :=
        Finset.not_nonempty_iff_eq_empty.mp hS
      refine ⟨select scores active, ?_,
        fun x hx => select_of_not_mem scores active x hx,
        fun d hd => select_mem_insert scores active d hroot hd,
        fun d hd => select_ne_self scores active d hroot hd,
        reaches_of_no_cyclic active (select scores active) hroot
          (fun d hd => select_mem_insert scores active d hroot hd) hempty,
        ?_⟩
      · rw [chuliuFuel_succ, dif_neg hS]
      · intro A hA_out hA_mem hA_ne hA_reach
        apply Finset.sum_le_sum
        intro d hd
        refine select_max scores active d hroot hd (A d) ?_
        refine (mem_cand active d (A d)).mpr ⟨hA_ne d hd, ?_⟩
        rcases Finset.mem_insert.mp (hA_mem d hd) with hr | ha
        · exact Or.inl hr
        · exact Or.inr ha

/-! ### The decoded assignment of a full sentence -/

theorem root_not_mem_topActive : root ∉ (topActive : Finset (V n)) := by
  simp [topActive]

theorem mem_topActive (d : V n) : d ∈ (topActive : Finset (V n)) ↔ d ≠ root := by
  simp [topActive]

theorem topActive_card : (topActive : Finset (V n)).card = n := by
  rw [topActive, Finset.card_erase_of_mem (Finset.mem_univ root)]
  simp

theorem hFinal_spec (scores : V n → V n → ℚ) :
    chuliuFuel (n + 1) scores topActive = some (hFinal scores) ∧
      hFinal scores root = root ∧
      (∀ d : V n, d ≠ root → hFinal scores d ≠ d) ∧
      (∀ d : V n, d ≠ root → reaches (hFinal scores) d) ∧
      ∀ A : V n → V n, A root = root →
        (∀ d : V n, d ≠ root → A d ≠ d) →
        (∀ d : V n, d ≠ root → reaches A d) →
        total scores topActive A ≤ total scores topActive (hFinal scores) := by
  obtain ⟨h, heq, hout, _, hne, hreach, hopt⟩ :=
    chuliuFuel_spec (n + 1) scores topActive root_not_mem_topActive
      (by rw [topActive_card]; omega)
  have hfinal : hFinal scores = h := by
    rw [hFinal, heq]
    rfl
  rw [hfinal]
  refine ⟨heq, hout root root_not_mem_topActive,
    fun d hd => hne d ((mem_topActive d).mpr hd),
    fun d hd => hreach d ((mem_topActive d).mpr hd), ?_⟩
  intro A hA0 hAne hAreach
  refine hopt A ?_ ?_ ?_ ?_
  · intro x hx
    rw [show x = root by
      by_contra hxr
      exact hx ((mem_topActive x).mpr hxr)]
    exact hA0
  · intro d _
    have : insert root (topActive : Finset (V n)) = Finset.univ := by
      rw [topActive, Finset.insert_erase (Finset.mem_univ root)]
    rw [this]
    exact Finset.mem_univ _
  · exact fun d hd => hAne d ((mem_topActive d).mp hd)
  · exact fun d hd => hAreach d ((mem_topActive d).mp hd)

theorem decodeClean_length (scores : V n → V n → ℚ) :
    (decodeClean scores).length = n + 1 := by
  simp [decodeClean]

theorem decodeClean_getD (scores : V n → V n → ℚ) (i : ℕ) (hi : i < n + 1)
    (dflt : ℕ) :
    (decodeClean scores).getD i dflt = (hFinal scores ⟨i, hi⟩).val := by
  rw [decodeClean, List.getD_eq_getElem _ _ (by simpa using hi), List.getElem_map]
  congr 1
  rw [List.getElem_finRange]
  apply Fin.ext
  simp

theorem decode_nil :
    decode ([] : RawMat) = Except.error DecodeError.invalidScoreMatrix := rfl

theorem decode_cons (row : List (Option ℚ)) (rest : RawMat) :
    decode (row :: rest) =
      if wellFormedM (row :: rest) then
        Except.ok (decodeClean (n := rest.length)
          fun i j => entryQ (row :: rest) i.val j.val)
      else Except.error DecodeError.invalidScoreMatrix := rfl

/-! ### The output viewed as an edge set -/

/-- The edge set of a head array: the pairs `(head[i], i)` for every
non-root position `i`. -/
def edgeSet (r : List ℕ) : Finset (ℕ × ℕ) :=
  ((Finset.range r.length).filter fun i => i ≠ 0).image fun i => (r.getD i 0, i)

/-- The edge relation of a head array: `a` is the head of `b`. -/
def EdgeRel (r : List ℕ) (a b : ℕ) : Prop := (a, b) ∈ edgeSet r

/-- The edge relation of a head assignment on `Fin`: `a` is the head of
the non-root node `b`. -/
def FEdge (h : V n → V n) (a b : V n) : Prop := h b = a ∧ b ≠ root

theorem mem_edgeSet (r : List ℕ) (a b : ℕ) :
    (a, b) ∈ edgeSet r ↔ b ≠ 0 ∧ b < r.length ∧ a = r.getD b 0 := by
  simp only [edgeSet, Finset.mem_image, Finset.mem_filter, Finset.mem_range,
    Prod.mk.injEq]
  constructor
  · rintro ⟨i, ⟨hlt, hne⟩, hv, rfl⟩
    exact ⟨hne, hlt, hv.symm⟩
  · rintro ⟨hne, hlt, rfl⟩
    exact ⟨b, ⟨hlt, hne⟩, rfl, rfl⟩

theorem edgeSet_card (r : List ℕ) (hr : r.length ≠ 0) :
    (edgeSet r).card = r.length - 1 := by
  rw [edgeSet, Finset.card_image_of_injOn
    (fun a _ b _ hab => congrArg Prod.snd hab)]
  rw [Finset.filter_ne', Finset.card_erase_of_mem
    (Finset.mem_range.mpr (by omega))]
  simp

theorem edgeRel_iff (scores : V n → V n → ℚ) (a b : ℕ) :
    EdgeRel (decodeClean scores) a b ↔
      ∃ hb : b < n + 1, (⟨b, hb⟩ : V n) ≠ root ∧
        a = (hFinal scores ⟨b, hb⟩).val := by
  rw [EdgeRel, mem_edgeSet, decodeClean_length]
  constructor
  · rintro ⟨hb0, hblt, rfl⟩
    refine ⟨hblt, ?_, (decodeClean_getD scores b hblt 0)⟩
    intro he
    apply hb0
    have := congrArg Fin.val he
    simpa [root] using this
  · rintro ⟨hb, hbne, rfl⟩
    refine ⟨?_, hb, (decodeClean_getD scores b hb 0).symm⟩
    intro he
    apply hbne
    apply Fin.ext
    simp [root, he]

theorem transGen_lift (scores : V n → V n → ℚ) (a b : ℕ)
    (htg : Relation.TransGen (EdgeRel (decodeClean scores)) a b) :
    ∃ (ha : a < n + 1) (hb : b < n + 1),
      Relation.TransGen (FEdge (hFinal scores)) ⟨a, ha⟩ ⟨b, hb⟩ := by
  induction htg with
  | single hedge =>
    obtain ⟨hb, hbne, hav⟩ := (edgeRel_iff scores a _).mp hedge
    refine ⟨by rw [hav]; exact (hFinal scores ⟨_, hb⟩).isLt, hb, ?_⟩
    apply Relation.TransGen.single
    refine ⟨?_, hbne⟩
    apply Fin.ext
    simp [hav]
  | @tail p q _ hedge ih =>
    obtain ⟨ha, hp, htg'⟩ := ih
    obtain ⟨hq, hqne, hav⟩ := (edgeRel_iff scores p q).mp hedge
    refine ⟨ha, hq, ?_⟩
    have hmid : (⟨p, hp⟩ : V n) = hFinal scores ⟨q, hq⟩ := Fin.ext (by simp [hav])
    exact Relation.TransGen.tail (hmid ▸ htg') ⟨rfl, hqne⟩

theorem fedge_acyclic (scores : V n → V n → ℚ) (x : V n) :
    ¬ Relation.TransGen (FEdge (hFinal scores)) x x := by
  intro htg
  have hiter : ∀ a b : V n, Relation.TransGen (FEdge (hFinal scores)) a b →
      ∃ k, 1 ≤ k ∧ (hFinal scores)^[k] b = a ∧ b ≠ root := by
    intro a b htg'
    induction htg' with
    | single hedge => exact ⟨1, le_rfl, by simpa using hedge.1, hedge.2⟩
    | tail _ hedge ih =>
      obtain ⟨k, hk1, hk, _⟩ := ih
      refine ⟨k + 1, by omega, ?_, hedge.2⟩
      rw [Function.iterate_succ_apply, hedge.1, hk]
  obtain ⟨k, hk1, hk, hxr⟩ := hiter x x htg
  have hreach := (hFinal_spec scores).2.2.2.1 x hxr
  exact not_reaches_of_cyclic topActive (hFinal scores) x root_not_mem_topActive
    ((mem_topActive x).mpr hxr) (hFinal_spec scores).2.1 k hk1 hk hreach

theorem fedge_reach (scores : V n → V n → ℚ) :
    ∀ (k : ℕ) (x : V n), (hFinal scores)^[k] x = root →
      Relation.ReflTransGen (FEdge (hFinal scores)) root x := by
  intro k
  induction k using Nat.strong_induction_on with
  | _ k ih =>
    intro x hk
    by_cases hxr : x = root
    · exact hxr ▸ Relation.ReflTransGen.refl
    · have hkpos : 1 ≤ k := by
        rcases Nat.eq_zero_or_pos k with rfl | hp
        · exact absurd (by simpa using hk) hxr
        · exact hp
      have hk1 : (hFinal scores)^[k - 1] (hFinal scores x) = root := by
        have : (hFinal scores)^[k] x = (hFinal scores)^[k - 1] (hFinal scores x) := by
          conv_lhs => rw [show k = (k - 1) + 1 by omega]
          rw [Function.iterate_succ_apply]
        rw [← this]; exact hk
      exact Relation.ReflTransGen.tail (ih (k - 1) (by omega) _ hk1) ⟨rfl, hxr⟩

theorem edgeRel_reach (scores : V n → V n → ℚ) (i : ℕ) (hi : i < n + 1) :
    Relation.ReflTransGen (EdgeRel (decodeClean scores)) 0 i := by
  have hlift : ∀ a b : V n, Relation.ReflTransGen (FEdge (hFinal scores)) a b →
      Relation.ReflTransGen (EdgeRel (decodeClean scores)) a.val b.val := by
    intro a b hrt
    induction hrt with
    | refl => exact Relation.ReflTransGen.refl
    | tail _ hedge ih =>
      refine Relation.ReflTransGen.tail ih ?_
      rw [edgeRel_iff]
      exact ⟨Fin.isLt _, by simpa using hedge.2, by rw [← hedge.1]⟩
  by_cases hir : (⟨i, hi⟩ : V n) = root
  · have : i = 0 := by
      have := congrArg Fin.val hir
      simpa [root] using this
    exact this ▸ Relation.ReflTransGen.refl
  · obtain ⟨k, hk⟩ := (hFinal_spec scores).2.2.2.1 ⟨i, hi⟩ hir
    have := hlift root ⟨i, hi⟩ (fedge_reach scores k ⟨i, hi⟩ hk)
    simpa [root] using this

/-! ### The claims about the decoder -/

/-- C1: for every valid N×N input score matrix, the head array returned
by the arborescence decoder, viewed as the edge set
`(head[i], i) : i ≠ root`, has exactly N−1 edges, is acyclic, and makes
every node reachable from the designated root. -/
theorem C1_tree_validity (m : RawMat) (r : List ℕ)
    (hok : decode m = Except.ok r) :
    r.length = m.length ∧
    (edgeSet r).card = m.length - 1 ∧
    (∀ x : ℕ, ¬ Relation.TransGen (EdgeRel r) x x) ∧
    ∀ i, i < r.length → Relation.ReflTransGen (EdgeRel r) 0 i := by
  cases m with
  | nil => rw [decode_nil] at hok; exact absurd hok (by simp)
  | cons row rest =>
    rw [decode_cons] at hok
    split_ifs at hok with hwf
    · have hr : r = decodeClean (n := rest.length)
          fun i j => entryQ (row :: rest) i.val j.val := by
        injection hok with h
        exact h.symm
      subst hr
      refine ⟨by rw [decodeClean_length]; simp, ?_, ?_, ?_⟩
      · rw [edgeSet_card _ (by rw [decodeClean_length]; omega), decodeClean_length]
        simp
      · intro x htg
        obtain ⟨hx1, hx2, htgF⟩ := transGen_lift _ x x htg
        exact fedge_acyclic _ ⟨x, hx1⟩ htgF
      · intro i hi
        rw [decodeClean_length] at hi
        exact edgeRel_reach _ i hi

/-- C2: for every valid input score matrix, the tree returned by the
decoder maximizes the total selected edge score: no alternative head
assignment that also forms a valid tree rooted at the designated root has
strictly greater total score. -/
theorem C2_optimality (scores : V n → V n → ℚ) (A : V n → V n)
    (hA0 : A root = root)
    (hAreach : ∀ d : V n, d ≠ root → reaches A d) :
    total scores topActive A ≤ total scores topActive (hFinal scores) := by
  have hAne : ∀ d : V n, d ≠ root → A d ≠ d := by
    intro d hd hAd
    obtain ⟨k, hk⟩ := hAreach d hd
    rw [Function.iterate_fixed hAd] at hk
    exact hd hk
  exact (hFinal_spec scores).2.2.2.2 A hA0 hAne hAreach

/-- C3: every malformed input score matrix (not square, containing NaN,
or empty) is rejected with `InvalidScoreMatrix` — the only error the core
can surface, with no partial result — and every well-formed matrix is
decoded without error. -/
theorem C3_errors (m : RawMat) :
    (¬ wellFormedM m → decode m = Except.error DecodeError.invalidScoreMatrix) ∧
    (wellFormedM m → ∃ r, decode m = Except.ok r) ∧
    ∀ e : DecodeError, e = DecodeError.invalidScoreMatrix := by
  refine ⟨?_, ?_, fun e => by cases e; rfl⟩
  · intro hwf
    cases m with
    | nil => exact decode_nil
    | cons row rest => rw [decode_cons, if_neg hwf]
  · intro hwf
    cases m with
    | nil => exact absurd rfl hwf.1
    | cons row rest => exact ⟨_, by rw [decode_cons, if_pos hwf]⟩

/-- C4: for every valid input of length N, the decoder's output is an
integer array of length N whose entry 0 is the root sentinel, whose other
entries lie in `[0, N)`, and in which the root never receives a head:
no edge of the output has the root as its dependent. -/
theorem C4_output_shape (m : RawMat) (r : List ℕ)
    (hok : decode m = Except.ok r) :
    r.length = m.length ∧
    r.getD 0 0 = rootSentinel ∧
    (∀ i, 1 ≤ i → i < r.length → r.getD i 0 < m.length) ∧
    ∀ a : ℕ, (a, 0) ∉ edgeSet r := by
  cases m with
  | nil => rw [decode_nil] at hok; exact absurd hok (by simp)
  | cons row rest =>
    rw [decode_cons] at hok
    split_ifs at hok with hwf
    · have hr : r = decodeClean (n := rest.length)
          fun i j => entryQ (row :: rest) i.val j.val := by
        injection hok with h
        exact h.symm
      subst hr
      refine ⟨by rw [decodeClean_length]; simp, ?_, ?_, ?_⟩
      · rw [decodeClean_getD _ 0 (by omega) 0]
        have h0 : (⟨0, by omega⟩ : V rest.length) = root := rfl
        rw [h0, (hFinal_spec _).2.1]
        rfl
      · intro i h1 hi
        rw [decodeClean_length] at hi
        rw [decodeClean_getD _ i hi 0]
        have := (hFinal (fun i j => entryQ (row :: rest) i.val j.val) ⟨i, hi⟩).isLt
        simpa using this
      · intro a ha
        rw [mem_edgeSet] at ha
        exact ha.1 rfl

/-- C5: if the naive per-node arg-max head selection already yields a
cycle-free assignment (a tree), the cycle detector finds nothing, no
contraction is performed, and the full decoder returns exactly that
greedy assignment. -/
theorem C5_greedy_shortcut (scores : V n → V n → ℚ)
    (htree : ∀ d ∈ (topActive : Finset (V n)),
      reaches (select scores topActive) d) :
    cyclicNodes (select scores topActive) topActive = ∅ ∧
    chuliuFuel (n + 1) scores topActive = some (select scores topActive) ∧
    hFinal scores = select scores topActive ∧
    decodeClean scores =
      (List.finRange (n + 1)).map fun i => (select scores topActive i).val := by
  have hempty : cyclicNodes (select scores topActive) topActive = ∅ := by
    rw [Finset.eq_empty_iff_forall_not_mem]
    intro d hd
    obtain ⟨hda, k, hk1, hkn, hcy⟩ := (mem_cyclicNodes _ _ _).mp hd
    exact not_reaches_of_cyclic topActive (select scores topActive) d
      root_not_mem_topActive hda
      (select_root scores topActive root_not_mem_topActive)
      k hk1 hcy (htree d hda)
  have heq : chuliuFuel (n + 1) scores topActive =
      some (select scores topActive) := by
    rw [chuliuFuel_succ,
      dif_neg (by rw [hempty]; exact Finset.not_nonempty_empty)]
  have hfin : hFinal scores = select scores topActive := by
    rw [hFinal, heq]
    rfl
  exact ⟨hempty, heq, hfin, by rw [decodeClean, hfin]⟩

/-- C6: decoding is deterministic — the decoder is a pure function, so
two invocations on the same matrix agree — and score ties during
candidate head selection are broken toward the lowest source index. -/
theorem C6_deterministic_tiebreak (m : RawMat) :
    decode m = decode m ∧
    ∀ (N : ℕ) (scores : V N → V N → ℚ) (active : Finset (V N)) (d : V N),
      root ∉ active → d ∈ active →
      ∀ y ∈ cand active d,
        scores y d ≤ scores (select scores active d) d ∧
        (scores y d = scores (select scores active d) d →
          select scores active d ≤ y) := by
  refine ⟨rfl, ?_⟩
  intro N scores active d hroot hd y hy
  exact ⟨select_max scores active d hroot hd y hy,
    select_tiebreak scores active d hroot hd y hy⟩

/-- C7: the driver terminates on every valid input: a detected cycle has
at least 2 members and contracting it strictly reduces the active node
count, so recursion depth (fuel) N always suffices. -/
theorem C7_termination (scores : V n → V n → ℚ) (active : Finset (V n))
    (hroot : root ∉ active) :
    (∀ hS : (cyclicNodes (select scores active) active).Nonempty,
      2 ≤ (orbit (select scores active)
        ((cyclicNodes (select scores active) active).min' hS)).card ∧
      (insert ((cyclicNodes (select scores active) active).min' hS)
        (active \ orbit (select scores active)
          ((cyclicNodes (select scores active) active).min' hS))).card + 1 ≤
        active.card) ∧
    (active.card < n + 1 → ∃ h, chuliuFuel (n + 1) scores active = some h) := by
  constructor
  · intro hS
    obtain ⟨hcact, k, hk1, hkn, hcy⟩ :=
      (mem_cyclicNodes (select scores active) active _).mp (Finset.min'_mem _ hS)
    have hh_mem : ∀ d ∈ active, select scores active d ∈ insert root active :=
      fun d hd => select_mem_insert scores active d hroot hd
    have hfix := select_root scores active hroot
    have hCsub := orbit_subset_active (select scores active)
      ((cyclicNodes (select scores active) active).min' hS) k active hroot
      hh_mem hfix hcact hk1 hcy
    have hC2 := orbit_card_two (select scores active)
      ((cyclicNodes (select scores active) active).min' hS) k hk1 hkn hcy
      (select_ne_self scores active _ hroot hcact)
    have hcC : (cyclicNodes (select scores active) active).min' hS ∈
        orbit (select scores active)
          ((cyclicNodes (select scores active) active).min' hS) :=
      self_mem_orbit _ _
    have hcnotin : (cyclicNodes (select scores active) active).min' hS ∉
        active \ orbit (select scores active)
          ((cyclicNodes (select scores active) active).min' hS) :=
      fun hm => (Finset.mem_sdiff.mp hm).2 hcC
    refine ⟨hC2, ?_⟩
    rw [Finset.card_insert_of_not_mem hcnotin, Finset.card_sdiff hCsub]
    have := Finset.card_le_card hCsub
    omega
  · intro hcard
    obtain ⟨h, heq, _⟩ := chuliuFuel_spec (n + 1) scores active hroot hcard
    exact ⟨h, heq⟩

/-! ### Concrete instantiations of the hypotheses of the claims -/

theorem C1_tree_validity_witness :
    ([0, 0] : List ℕ).length =
      ([[some 0, some 1], [some 0, some 0]] : RawMat).length ∧
    (edgeSet [0, 0]).card =
      ([[some 0, some 1], [some 0, some 0]] : RawMat).length - 1 ∧
    (∀ x : ℕ, ¬ Relation.TransGen (EdgeRel [0, 0]) x x) ∧
    ∀ i, i < ([0, 0] : List ℕ).length →
      Relation.ReflTransGen (EdgeRel [0, 0]) 0 i :=
  C1_tree_validity [[some 0, some 1], [some 0, some 0]] [0, 0] rfl

theorem C2_optimality_witness :
    total (fun _ _ => (0 : ℚ) : V 1 → V 1 → ℚ) topActive
        (fun _ => (root : V 1)) ≤
      total (fun _ _ => (0 : ℚ) : V 1 → V 1 → ℚ) topActive
        (hFinal (fun _ _ => (0 : ℚ) : V 1 → V 1 → ℚ)) :=
  C2_optimality (fun _ _ => (0 : ℚ) : V 1 → V 1 → ℚ) (fun _ => (root : V 1))
    rfl (fun _ _ => ⟨1, rfl⟩)

theorem C3_errors_witness :
    decode [[some 1, none], [some 0, some 2]] =
      Except.error DecodeError.invalidScoreMatrix ∧
    ∃ r, decode [[some 1]] = Except.ok r :=
  ⟨(C3_errors [[some 1, none], [some 0, some 2]]).1 (by decide),
    (C3_errors [[some 1]]).2.1 (by decide)⟩

theorem C4_output_shape_witness :
    ([0, 0] : List ℕ).length =
      ([[some 0, some 1], [some 0, some 0]] : RawMat).length ∧
    ([0, 0] : List ℕ).getD 0 0 = rootSentinel ∧
    (∀ i, 1 ≤ i → i < ([0, 0] : List ℕ).length →
      ([0, 0] : List ℕ).getD i 0 <
        ([[some 0, some 1], [some 0, some 0]] : RawMat).length) ∧
    ∀ a : ℕ, (a, 0) ∉ edgeSet [0, 0] :=
  C4_output_shape [[some 0, some 1], [some 0, some 0]] [0, 0] rfl

theorem C5_greedy_shortcut_witness :
    cyclicNodes (select (fun _ _ => (0 : ℚ) : V 1 → V 1 → ℚ) topActive)
      (topActive : Finset (V 1)) = ∅ ∧
    chuliuFuel 2 (fun _ _ => (0 : ℚ) : V 1 → V 1 → ℚ) topActive =
      some (select (fun _ _ => (0 : ℚ) : V 1 → V 1 → ℚ) topActive) ∧
    hFinal (fun _ _ => (0 : ℚ) : V 1 → V 1 → ℚ) =
      select (fun _ _ => (0 : ℚ) : V 1 → V 1 → ℚ) topActive ∧
    decodeClean (fun _ _ => (0 : ℚ) : V 1 → V 1 → ℚ) =
      (List.finRange 2).map
        fun i => (select (fun _ _ => (0 : ℚ) : V 1 → V 1 → ℚ) topActive i).val :=
  C5_greedy_shortcut (fun _ _ => (0 : ℚ) : V 1 → V 1 → ℚ) (by
    intro d hd
    fin_cases d
    · exact absurd hd (by decide)
    · exact ⟨1, by decide⟩)

theorem C6_deterministic_tiebreak_witness :
    decode ([] : RawMat) = decode ([] : RawMat) ∧
    select (fun _ _ => (0 : ℚ)) ({1} : Finset (V 1)) 1 ≤ 0 :=
  ⟨(C6_deterministic_tiebreak []).1,
    ((C6_deterministic_tiebreak []).2 1 (fun _ _ => (0 : ℚ)) {1} 1
      (by decide) (by decide) 0 (by decide)).2 (by decide)⟩

theorem C7_termination_witness :
    ∃ h, chuliuFuel 3 (fun _ _ => (0 : ℚ)) (topActive : Finset (V 2)) =
      some h :=
  (C7_termination (fun _ _ => (0 : ℚ)) topActive (by decide)).2 (by decide)

end CLE

namespace NpDep

theorem C8_predict_matrix_witness :
    IsRect (predictSolverMatrix [[1, 2], [3, 4]]) 1 1 ∧
    ∀ i j, i < 1 → j < 1 →
      ((predictSolverMatrix [[1, 2], [3, 4]]).getD i []).getD j 0 =
        (([[1, 2], [3, 4]] : Mat).getD (j + 1) []).getD (i + 1) 0 :=
  C8_predict_matrix [[1, 2], [3, 4]] 2 (by decide)

theorem C9_greedy_argmax_witness :
    ((greedyHeads [[2, 0], [0, 1]]).length = 2 ∧
      ∀ i < 2, (greedyHeads [[2, 0], [0, 1]]).getD i 0 < 2 ∧
        (∀ j < 2, ((npT [[2, 0], [0, 1]]).getD i []).getD j 0 ≤
          ((npT [[2, 0], [0, 1]]).getD i []).getD
            ((greedyHeads [[2, 0], [0, 1]]).getD i 0) 0) ∧
        ∀ j < 2, ((npT [[2, 0], [0, 1]]).getD i []).getD j 0 =
            ((npT [[2, 0], [0, 1]]).getD i []).getD
              ((greedyHeads [[2, 0], [0, 1]]).getD i 0) 0 →
          (greedyHeads [[2, 0], [0, 1]]).getD i 0 ≤ j) ∧
    greedyHeads [[2, 0], [0, 1]] = [0, 1] :=
  C9_greedy_argmax [[2, 0], [0, 1]] 2 (by decide) (by decide)

theorem C10_root_edge_dropped_witness :
    ((7 : ℕ), (9 : ℕ), (1 : ℕ)).2.2 ≠ 0 :=
  C10_root_edge_dropped [5, 7] [9, 9] 2 (7, 9, 1) (by decide)

end NpDep
